import Mathlib

/-!
Verification development for the Route-Configuration-Manager repository.

The Python sources are shallowly embedded:
* Python strings are modeled as lists of characters (`Str`), so that the
  string operations the code uses (`str.strip`, `re.split` on a class of
  separator characters, `",".join`, f-string decimal formatting of integers)
  become explicitly defined recursive functions.
* Geographic coordinates are modeled as rationals; the only numeric operation
  the codec performs on them is fixed 8-decimal formatting, modeled as
  rounding to a multiple of 10^-8.
* Python `while` loops are modeled with explicit fuel large enough to cover
  every terminating run, with termination proved where a claim needs it.
* Operations that can raise a Python exception are modeled in `Except`.
-/

set_option maxRecDepth 10000

namespace RouteCfg

/-- A Python string, modeled as its list of characters. -/
abbrev Str := List Char

/-- Models Python `str.strip()`: remove leading and trailing whitespace. -/
def pstrip (s : Str) : Str :=
  ((s.dropWhile Char.isWhitespace).reverse.dropWhile Char.isWhitespace).reverse

/-- The separator class of `re.split(r"[;,]", s)` used by the bulk-update page. -/
def isSepChar (c : Char) : Bool := c = ';' || c = ','

/-- Models `re.split(r"[;,]", s)`: split on every `;` or `,`, keeping empty pieces. -/
def splitSepChars : Str → List Str
  | [] => [[]]
  | c :: rest =>
    if isSepChar c then [] :: splitSepChars rest
    else
      match splitSepChars rest with
      | [] => [[c]]
      | t :: ts => (c :: t) :: ts

/-- Models `",".join(ts)`. -/
def joinComma : List Str → Str
  | [] => []
  | [t] => t
  | t :: ts => t ++ ',' :: joinComma ts

/-- The character for a single decimal digit. -/
def digitChar (d : ℕ) : Char := Char.ofNat (48 + d)

/-- Fuel-based decimal formatting of a natural number (most significant digit first). -/
def decCharsAux : ℕ → ℕ → List Char
  | 0, _ => []
  | fuel + 1, n => if n < 10 then [digitChar n] else decCharsAux fuel (n / 10) ++ [digitChar (n % 10)]

/-- Models Python decimal formatting `str(n)` / f-string interpolation of a
natural number. -/
def decChars (n : ℕ) : Str := decCharsAux (n + 1) n

/-- Models Python `int(s)` on a string of decimal digits. -/
def decVal (s : Str) : ℕ := s.foldl (fun a c => 10 * a + (c.toNat - 48)) 0

theorem digitChar_toNat {d : ℕ} (h : d < 10) : (digitChar d).toNat = 48 + d := by
  interval_cases d <;> rfl

theorem digitChar_isDigit {d : ℕ} (h : d < 10) : (digitChar d).isDigit = true := by
  interval_cases d <;> rfl

theorem mem_decCharsAux_digit {fuel n : ℕ} {c : Char} (hc : c ∈ decCharsAux fuel n) :
    ∃ d, d < 10 ∧ c = digitChar d := by
  induction fuel generalizing n with
  | zero => simp [decCharsAux] at hc
  | succ fuel ih =>
    rw [decCharsAux] at hc
    split at hc
    · simp only [List.mem_singleton] at hc
      exact ⟨n, by omega, hc⟩
    · rcases List.mem_append.1 hc with h | h
      · exact ih h
      · simp only [List.mem_singleton] at h
        exact ⟨n % 10, Nat.mod_lt _ (by omega), h⟩

theorem mem_decChars_digit {n : ℕ} {c : Char} (hc : c ∈ decChars n) :
    ∃ d, d < 10 ∧ c = digitChar d := mem_decCharsAux_digit hc

theorem decChars_isDigit {n : ℕ} {c : Char} (hc : c ∈ decChars n) : c.isDigit = true := by
  obtain ⟨d, hd, rfl⟩ := mem_decChars_digit hc
  exact digitChar_isDigit hd

theorem decCharsAux_ne_nil {fuel n : ℕ} : decCharsAux (fuel + 1) n ≠ [] := by
  rw [decCharsAux]; split <;> simp

theorem decChars_ne_nil {n : ℕ} : decChars n ≠ [] := decCharsAux_ne_nil

theorem decVal_decCharsAux {fuel n : ℕ} (h : n < fuel) (acc : ℕ) :
    (decCharsAux fuel n).foldl (fun a c => 10 * a + (c.toNat - 48)) acc
      = acc * 10 ^ (decCharsAux fuel n).length + n := by
  induction fuel generalizing n acc with
  | zero => omega
  | succ fuel ih =>
    rw [decCharsAux]
    split
    · next hn =>
      simp only [List.foldl_cons, List.foldl_nil, List.length_singleton, pow_one]
      rw [digitChar_toNat hn]; omega
    · next hn =>
      have hdiv : n / 10 < fuel := by
        have h1 : n / 10 < n := Nat.div_lt_self (by omega) (by omega)
        omega
      rw [List.foldl_append, List.length_append, ih hdiv]
      simp only [List.foldl_cons, List.foldl_nil, List.length_singleton]
      rw [digitChar_toNat (Nat.mod_lt _ (by norm_num))]
      have hmod : 10 * (n / 10) + n % 10 = n := Nat.div_add_mod n 10
      rw [pow_succ]
      ring_nf
      omega

theorem decVal_decChars (n : ℕ) : decVal (decChars n) = n := by
  have h := @decVal_decCharsAux (n + 1) n (by omega) 0
  simpa [decVal, decChars] using h

theorem decChars_inj {m n : ℕ} (h : decChars m = decChars n) : m = n := by
  have := congrArg decVal h
  rwa [decVal_decChars, decVal_decChars] at this

theorem isDigit_not_whitespace {c : Char} (h : c.isDigit = true) : c.isWhitespace = false := by
  rcases Bool.eq_false_or_eq_true c.isWhitespace with hw | hw
  case inr => exact hw
  exfalso
  simp only [Char.isWhitespace, Bool.or_eq_true, decide_eq_true_eq] at hw
  rcases hw with ((rfl | rfl) | rfl) | rfl <;> revert h <;> decide

theorem isDigit_not_sep {c : Char} (h : c.isDigit = true) : isSepChar c = false := by
  rcases Bool.eq_false_or_eq_true (isSepChar c) with hs | hs
  case inr => exact hs
  exfalso
  simp only [isSepChar, Bool.or_eq_true, decide_eq_true_eq] at hs
  rcases hs with rfl | rfl <;> revert h <;> decide

theorem isUpper_not_whitespace {c : Char} (h : c.isUpper = true) : c.isWhitespace = false := by
  rcases Bool.eq_false_or_eq_true c.isWhitespace with hw | hw
  case inr => exact hw
  exfalso
  simp only [Char.isWhitespace, Bool.or_eq_true, decide_eq_true_eq] at hw
  rcases hw with ((rfl | rfl) | rfl) | rfl <;> revert h <;> decide

theorem isUpper_not_sep {c : Char} (h : c.isUpper = true) : isSepChar c = false := by
  rcases Bool.eq_false_or_eq_true (isSepChar c) with hs | hs
  case inr => exact hs
  exfalso
  simp only [isSepChar, Bool.or_eq_true, decide_eq_true_eq] at hs
  rcases hs with rfl | rfl <;> revert h <;> decide

theorem dropWhile_eq_self_of_head {p : Char → Bool} {s : Str}
    (h : ∀ c, s.head? = some c → p c = false) : s.dropWhile p = s := by
  cases s with
  | nil => rfl
  | cons c t => exact List.dropWhile_cons_of_neg (by simp [h c rfl])

theorem pstrip_eq_self {s : Str}
    (hh : ∀ c, s.head? = some c → c.isWhitespace = false)
    (hl : ∀ c, s.getLast? = some c → c.isWhitespace = false) : pstrip s = s := by
  unfold pstrip
  rw [dropWhile_eq_self_of_head hh]
  rw [dropWhile_eq_self_of_head (by
    intro c hc
    rw [List.head?_reverse] at hc
    exact hl c hc)]
  exact List.reverse_reverse s

theorem getLast?_cons_of_ne {c : Char} {t : Str} (h : t ≠ []) :
    (c :: t).getLast? = t.getLast? := by
  cases t with
  | nil => exact absurd rfl h
  | cons b l => rfl

theorem getLast?_dropWhile {p : Char → Bool} {l : Str} (h : l.dropWhile p ≠ []) :
    (l.dropWhile p).getLast? = l.getLast? := by
  induction l with
  | nil => simp at h
  | cons c t ih =>
    by_cases hp : p c
    · rw [List.dropWhile_cons_of_pos hp] at h ⊢
      have ht : t ≠ [] := by
        intro he; subst he; simp [List.dropWhile] at h
      rw [ih h, getLast?_cons_of_ne ht]
    · rw [List.dropWhile_cons_of_neg hp]

theorem pstrip_head {s : Str} {c : Char} (h : (pstrip s).head? = some c) :
    c.isWhitespace = false := by
  unfold pstrip at h
  rw [List.head?_reverse] at h
  set t1 := (s.dropWhile Char.isWhitespace).reverse with ht1
  have hne : t1.dropWhile Char.isWhitespace ≠ [] := by
    intro he; rw [he] at h; simp at h
  rw [getLast?_dropWhile hne] at h
  rw [ht1, List.getLast?_reverse] at h
  have := List.head?_dropWhile_not Char.isWhitespace s
  rw [h] at this
  exact this

theorem pstrip_last {s : Str} {c : Char} (h : (pstrip s).getLast? = some c) :
    c.isWhitespace = false := by
  unfold pstrip at h
  rw [List.getLast?_reverse] at h
  have := List.head?_dropWhile_not Char.isWhitespace (s.dropWhile Char.isWhitespace).reverse
  rw [h] at this
  exact this

theorem pstrip_idem (s : Str) : pstrip (pstrip s) = pstrip s :=
  pstrip_eq_self (fun _ h => pstrip_head h) (fun _ h => pstrip_last h)

theorem splitSepChars_ne_nil {s : Str} : splitSepChars s ≠ [] := by
  cases s with
  | nil => simp [splitSepChars]
  | cons c rest =>
    rw [splitSepChars]
    split
    · simp
    · split <;> simp

theorem mem_splitSepChars_sepFree {s : Str} {t : Str} (ht : t ∈ splitSepChars s)
    {c : Char} (hc : c ∈ t) : isSepChar c = false := by
  induction s generalizing t with
  | nil =>
    simp only [splitSepChars, List.mem_singleton] at ht
    subst ht; simp at hc
  | cons a rest ih =>
    rw [splitSepChars] at ht
    split at ht
    · rcases List.mem_cons.1 ht with rfl | h
      · simp at hc
      · exact ih h hc
    · next ha =>
      rcases hsp : splitSepChars rest with _ | ⟨u, us⟩
      · exact absurd hsp splitSepChars_ne_nil
      · rw [hsp] at ht
        rcases List.mem_cons.1 ht with rfl | h
        · rcases List.mem_cons.1 hc with rfl | h2
          · simpa using ha
          · exact ih (by rw [hsp]; exact List.mem_cons_self u us) h2
        · exact ih (by rw [hsp]; exact List.mem_cons_of_mem u h) hc

theorem splitSepChars_single {t : Str} (ht : ∀ c ∈ t, isSepChar c = false) :
    splitSepChars t = [t] := by
  induction t with
  | nil => rfl
  | cons c rest ih =>
    rw [splitSepChars]
    rw [if_neg (by simp [ht c (List.mem_cons_self c rest)])]
    rw [ih (fun d hd => ht d (List.mem_cons_of_mem c hd))]

theorem splitSepChars_append_comma {t u : Str} (ht : ∀ c ∈ t, isSepChar c = false) :
    splitSepChars (t ++ ',' :: u) = t :: splitSepChars u := by
  induction t with
  | nil =>
    simp only [List.nil_append]
    rw [splitSepChars, if_pos (by simp [isSepChar])]
  | cons c rest ih =>
    simp only [List.cons_append]
    rw [splitSepChars]
    rw [if_neg (by simp [ht c (List.mem_cons_self c rest)])]
    rw [ih (fun d hd => ht d (List.mem_cons_of_mem c hd))]

theorem joinComma_cons (t t2 : Str) (ts : List Str) :
    joinComma (t :: t2 :: ts) = t ++ ',' :: joinComma (t2 :: ts) := rfl

theorem splitSepChars_joinComma {ts : List Str} (hne : ts ≠ [])
    (ht : ∀ t ∈ ts, ∀ c ∈ t, isSepChar c = false) :
    splitSepChars (joinComma ts) = ts := by
  induction ts with
  | nil => exact absurd rfl hne
  | cons t rest ih =>
    cases rest with
    | nil => exact splitSepChars_single (ht t (List.mem_cons_self t []))
    | cons t2 rest2 =>
      rw [joinComma_cons]
      rw [splitSepChars_append_comma (ht t (List.mem_cons_self t _))]
      rw [ih (List.cons_ne_nil t2 rest2) (fun u hu => ht u (List.mem_cons_of_mem t hu))]

/-!  Route-number generation (app9.py, add_route, lines 119-123; identically
test_creatiob_from_scratch.py lines 99-103):
    num = start_num
    while num in st.session_state.used_nums:
        num += route_number_gap
    st.session_state.used_nums.append(num)
The while loop is modeled with fuel; `used.length + 1` iterations always
suffice when the gap is positive, which is proved below. -/

/-- The while loop of the route-number generator, with explicit fuel. -/
def nextNumAux (used : List ℕ) (gap : ℕ) : ℕ → ℕ → ℕ
  | 0, num => num
  | fuel + 1, num => if num ∈ used then nextNumAux used gap fuel (num + gap) else num

/-- Models the fresh route-number computation of add_route. -/
def nextNum (used : List ℕ) (gap startNum : ℕ) : ℕ :=
  nextNumAux used gap (used.length + 1) startNum

/-- One createRoute step on the session state: generate a number and append it
to the session's used-number list. -/
def addRouteStep (used : List ℕ) (gap startNum : ℕ) : ℕ × List ℕ :=
  (nextNum used gap startNum, used ++ [nextNum used gap startNum])

theorem filter_le_length_filter {p q : ℕ → Bool} {l : List ℕ}
    (h : ∀ x, p x = true → q x = true) :
    (l.filter p).length ≤ (l.filter q).length := by
  induction l with
  | nil => simp
  | cons u t ih =>
    by_cases hp : p u
    · rw [List.filter_cons_of_pos hp, List.filter_cons_of_pos (h u hp)]
      simpa using ih
    · rw [List.filter_cons_of_neg (by simpa using hp)]
      by_cases hq : q u
      · rw [List.filter_cons_of_pos hq]
        exact le_trans ih (by simp)
      · rw [List.filter_cons_of_neg (by simpa using hq)]
        exact ih

theorem filter_ge_decrease {used : List ℕ} {num gap : ℕ} (hg : 0 < gap) (hmem : num ∈ used) :
    (used.filter (fun u => num + gap ≤ u)).length
      < (used.filter (fun u => num ≤ u)).length := by
  induction used with
  | nil => simp at hmem
  | cons u t ih =>
    rcases List.mem_cons.1 hmem with rfl | hmem
    · have hp : decide (num + gap ≤ num) = false := by
        simp only [decide_eq_false_iff_not]; omega
      rw [List.filter_cons_of_neg (by rw [hp]; exact Bool.false_ne_true)]
      rw [List.filter_cons_of_pos (by simp)]
      have hm : (t.filter (fun u => num + gap ≤ u)).length ≤ (t.filter (fun u => num ≤ u)).length :=
        filter_le_length_filter (fun x hx => by
          simp only [decide_eq_true_eq] at hx ⊢; omega)
      simp only [List.length_cons]
      omega
    · by_cases hp : num + gap ≤ u
      · rw [List.filter_cons_of_pos (by simpa using hp)]
        rw [List.filter_cons_of_pos (by simp only [decide_eq_true_eq]; omega)]
        simpa using ih hmem
      · rw [List.filter_cons_of_neg (by simpa using hp)]
        by_cases hq : num ≤ u
        · rw [List.filter_cons_of_pos (by simpa using hq)]
          exact lt_trans (ih hmem) (by simp)
        · rw [List.filter_cons_of_neg (by simpa using hq)]
          exact ih hmem

theorem nextNumAux_spec {used : List ℕ} {gap : ℕ} (hg : 0 < gap) :
    ∀ fuel num, (used.filter (fun u => num ≤ u)).length < fuel →
      nextNumAux used gap fuel num ∉ used ∧
        ∃ k, nextNumAux used gap fuel num = num + k * gap := by
  intro fuel
  induction fuel with
  | zero => intro num h; omega
  | succ fuel ih =>
    intro num h
    rw [nextNumAux]
    by_cases hmem : num ∈ used
    · rw [if_pos hmem]
      have hdec := filter_ge_decrease hg hmem
      obtain ⟨hnot, k, hk⟩ := ih (num + gap) (by omega)
      exact ⟨hnot, k + 1, by rw [hk]; ring⟩
    · rw [if_neg hmem]
      exact ⟨hmem, 0, by ring⟩

theorem nextNum_spec (used : List ℕ) (gap startNum : ℕ) (hg : 0 < gap) :
    nextNum used gap startNum ∉ used ∧
      ∃ k, nextNum used gap startNum = startNum + k * gap := by
  apply nextNumAux_spec hg
  have := List.length_filter_le (fun u => startNum ≤ u) used
  omega

/-!  Zone-name de-duplication (Home.py, lines 272-283):
    new_zone_name_unique = base_zone_name
    if base_zone_name in existing_names:
        i = 2
        while f"..." in existing_names: i += 1
        new_zone_name_unique = f"..."
followed by appending the new preference (line 300). -/

/-- The suffix-search while loop of the zone-name de-duplicator, with fuel. -/
def uniqueZoneAux (base : Str) (existing : List Str) : ℕ → ℕ → Str
  | 0, i => base ++ decChars i
  | fuel + 1, i =>
    if (base ++ decChars i) ∈ existing then uniqueZoneAux base existing fuel (i + 1)
    else base ++ decChars i

/-- Models the unique-zone-name computation of Home.py lines 272-283. -/
def new_zone_name_unique (base : Str) (existing : List Str) : Str :=
  if base ∈ existing then uniqueZoneAux base existing (existing.length + 1) 2 else base

/-- One addPreference step on a route's sibling zone-name list: the new
preference's zone name is appended (Home.py line 300). -/
def addPreferenceNames (existing : List Str) (base : Str) : List Str :=
  existing ++ [new_zone_name_unique base existing]

theorem exists_fresh_suffix (base : Str) (existing : List Str) (i : ℕ) :
    ∃ t, t < existing.length + 1 ∧ (base ++ decChars (i + t)) ∉ existing := by
  by_contra hc
  push_neg at hc
  have hinj : Set.InjOn (fun t => base ++ decChars (i + t))
      ↑(Finset.range (existing.length + 1)) := by
    intro a _ b _ hab
    have := decChars_inj (List.append_cancel_left hab)
    omega
  have hsub : Finset.image (fun t => base ++ decChars (i + t))
      (Finset.range (existing.length + 1)) ⊆ existing.toFinset := by
    intro x hx
    obtain ⟨t, ht, rfl⟩ := Finset.mem_image.1 hx
    exact List.mem_toFinset.2 (hc t (Finset.mem_range.1 ht))
  have h1 := Finset.card_image_of_injOn hinj
  have h2 := Finset.card_le_card hsub
  have h3 := List.toFinset_card_le existing
  rw [h1, Finset.card_range] at h2
  omega

theorem uniqueZoneAux_spec (base : Str) (existing : List Str) :
    ∀ fuel i, (∃ t, t < fuel ∧ (base ++ decChars (i + t)) ∉ existing) →
      ∃ t, uniqueZoneAux base existing fuel i = base ++ decChars (i + t) ∧
        (base ++ decChars (i + t)) ∉ existing ∧
        ∀ s, s < t → (base ++ decChars (i + s)) ∈ existing := by
  intro fuel
  induction fuel with
  | zero =>
    intro i h
    obtain ⟨t, ht, _⟩ := h
    omega
  | succ fuel ih =>
    intro i h
    rw [uniqueZoneAux]
    by_cases hmem : (base ++ decChars i) ∈ existing
    · rw [if_pos hmem]
      obtain ⟨t, ht, hfree⟩ := h
      have htpos : t ≠ 0 := by
        intro h0; subst h0; simp at hfree; exact hfree hmem
      obtain ⟨t', rfl⟩ : ∃ t', t = t' + 1 := ⟨t - 1, by omega⟩
      obtain ⟨t2, heq, hnot, hbelow⟩ := ih (i + 1)
        ⟨t', by omega, by rw [show i + 1 + t' = i + (t' + 1) by ring]; exact hfree⟩
      refine ⟨t2 + 1, ?_, ?_, ?_⟩
      · rw [heq]; ring_nf
      · rw [show i + (t2 + 1) = i + 1 + t2 by ring]; exact hnot
      · intro s hs
        cases s with
        | zero => simpa using hmem
        | succ s' =>
          rw [show i + (s' + 1) = i + 1 + s' by ring]
          exact hbelow s' (by omega)
    · rw [if_neg hmem]
      exact ⟨0, by simp, by simpa using hmem, fun s hs => by omega⟩

theorem new_zone_name_fresh (base : Str) (existing : List Str) :
    new_zone_name_unique base existing ∉ existing := by
  unfold new_zone_name_unique
  by_cases hmem : base ∈ existing
  · rw [if_pos hmem]
    obtain ⟨t, heq, hnot, _⟩ := uniqueZoneAux_spec base existing (existing.length + 1) 2
      (by
        obtain ⟨t, ht, hfree⟩ := exists_fresh_suffix base existing 2
        exact ⟨t, ht, hfree⟩)
    rw [heq]; exact hnot
  · rw [if_neg hmem]; exact hmem

/-- C6 (amended): for every session used-number set and positive gap, the
freshly generated route number is spaced from the starting range minimum by a
multiple of the route-number gap and never equals an already-used number.
(The range maximum is not consulted; see the counterexample.) -/
theorem c6_route_number_invariant (used : List ℕ) (gap startNum : ℕ) (hg : 0 < gap) :
    nextNum used gap startNum ∉ used ∧
      ∃ k, nextNum used gap startNum = startNum + k * gap :=
  nextNum_spec used gap startNum hg

/-- Witness for C6: a concrete session with two used numbers. -/
theorem c6_route_number_invariant_witness :
    0 < 5 ∧ (nextNum [1000, 1005] 5 1000 ∉ [1000, 1005] ∧
      ∃ k, nextNum [1000, 1005] 5 1000 = 1000 + k * 5) :=
  ⟨by decide, c6_route_number_invariant [1000, 1005] 5 1000 (by decide)⟩

/-- C6 counterexample: with the hardcoded admissible range 1000..1499 and a
user-chosen gap of 400, the third createRoute in a session generates 1800,
which lies outside the admissible range: the generator never checks the
range maximum. -/
theorem c6_range_counterexample :
    (addRouteStep (addRouteStep (addRouteStep [] 400 1000).2 400 1000).2 400 1000).1 = 1800 ∧
    ¬ (addRouteStep (addRouteStep (addRouteStep [] 400 1000).2 400 1000).2 400 1000).1 ≤ 1499 := by
  decide

/-- C7: after any sequence of addPreference calls on one route, starting from
pairwise-distinct sibling zone names, the sibling zone names remain pairwise
distinct; and when the base zone name is already taken, the new name appends
the smallest integer suffix greater than or equal to 2 that is not already
used among the sibling zone names. -/
theorem c7_zone_name_uniqueness :
    (∀ (init bases : List Str), init.Nodup →
        (bases.foldl addPreferenceNames init).Nodup) ∧
    (∀ (base : Str) (existing : List Str), base ∈ existing →
        ∃ i, 2 ≤ i ∧ new_zone_name_unique base existing = base ++ decChars i ∧
          (base ++ decChars i) ∉ existing ∧
          ∀ j, 2 ≤ j → j < i → (base ++ decChars j) ∈ existing) := by
  constructor
  · intro init bases
    induction bases generalizing init with
    | nil => intro h; exact h
    | cons b bs ih =>
      intro h
      rw [List.foldl_cons]
      apply ih
      rw [addPreferenceNames, List.nodup_append]
      refine ⟨h, List.nodup_singleton _, ?_⟩
      intro a ha hb
      rw [List.mem_singleton] at hb
      subst hb
      exact new_zone_name_fresh b init ha
  · intro base existing hmem
    rw [new_zone_name_unique, if_pos hmem]
    obtain ⟨t, heq, hnot, hbelow⟩ := uniqueZoneAux_spec base existing (existing.length + 1) 2
      (exists_fresh_suffix base existing 2)
    refine ⟨2 + t, by omega, heq, hnot, ?_⟩
    intro j h2 hj
    have hs : j - 2 < t := by omega
    have := hbelow (j - 2) hs
    rwa [show 2 + (j - 2) = j by omega] at this

/-- Witness for C7: two adds of the same base onto a route that already owns
that zone name produce the suffixed names, and the suffix search is exercised
at a concrete sibling list. -/
theorem c7_zone_name_uniqueness_witness :
    (([['A']] : List Str).Nodup ∧ ([['A'], ['A']].foldl addPreferenceNames [['A']]).Nodup ∧
      [['A'], ['A']].foldl addPreferenceNames [['A']] = [['A'], ['A', '2'], ['A', '3']]) ∧
    ((['A'] : Str) ∈ ([['A'], ['A', '2']] : List Str) ∧
      ∃ i, 2 ≤ i ∧ new_zone_name_unique ['A'] [['A'], ['A', '2']] = ['A'] ++ decChars i ∧
        (['A'] ++ decChars i) ∉ ([['A'], ['A', '2']] : List Str) ∧
        ∀ j, 2 ≤ j → j < i → (['A'] ++ decChars j) ∈ ([['A'], ['A', '2']] : List Str)) :=
  ⟨⟨by decide, c7_zone_name_uniqueness.1 [['A']] [['A'], ['A']] (by decide), by decide⟩,
    ⟨by decide, c7_zone_name_uniqueness.2 ['A'] [['A'], ['A', '2']] (by decide)⟩⟩

/-!  Geometry model.  A point is a (longitude, latitude) pair of rationals;
polygons are modeled by their exterior ring only (interior holes are not
modeled anywhere in this code base).  `Geom` covers the shapely geometry
kinds the code inspects with isinstance checks. -/

/-- A coordinate point (longitude, latitude). -/
abbrev Pt := ℚ × ℚ

/-- A member of a shapely GeometryCollection.  Shapely keeps collections
flat (a collection never contains another collection), so members range over
the remaining geometry kinds. -/
inductive GMember where
  | poly (ring : List Pt)
  | mpoly (rings : List (List Pt))
  | point (p : Pt)
  | linestring (pts : List Pt)
  deriving DecidableEq

/-- The shapely geometry kinds handled by the code. -/
inductive Geom where
  | poly (ring : List Pt)
  | mpoly (rings : List (List Pt))
  | point (p : Pt)
  | linestring (pts : List Pt)
  | collection (gs : List GMember)
  deriving DecidableEq

/-- Models `getattr(geom, "geoms", [])`: a multi-polygon yields its polygon
parts, a collection yields its members, other kinds have no parts. -/
def geomsOf : Geom → List GMember
  | .mpoly rs => rs.map GMember.poly
  | .collection gs => gs
  | _ => []

/-- Models normalize_geom of Home.py lines 74-90: pass polygons and
multi-polygons through, otherwise collect polygonal members (flattening
multi-polygons), returning none / the single polygon / a multi-polygon. -/
def normalize_geom : Option Geom → Option Geom
  | none => none
  | some (.poly r) => some (.poly r)
  | some (.mpoly rs) => some (.mpoly rs)
  | some g =>
    match (geomsOf g).foldl (fun acc h =>
      match h with
      | GMember.poly r => acc ++ [r]
      | GMember.mpoly rs => acc ++ rs
      | _ => acc) [] with
    | [] => none
    | [r] => some (.poly r)
    | rs => some (.mpoly rs)

/-- Models normalize_geom of "pages/ Restructuration par FSA.py" lines 67-71:
polygons and multi-polygons pass through, every other input yields none. -/
def normalize_geom_fsa : Option Geom → Option Geom
  | some (.poly r) => some (.poly r)
  | some (.mpoly rs) => some (.mpoly rs)
  | _ => none

/-- Follows the spec's words for Normalize on a heterogeneous collection: the
polygonal members in order, with nested multi-polygons flattened. -/
def polyMembers (gs : List GMember) : List (List Pt) :=
  gs.foldr (fun g acc =>
    match g with
    | GMember.poly r => r :: acc
    | GMember.mpoly rs => rs ++ acc
    | _ => acc) []

theorem collect_eq_polyMembers (gs : List GMember) :
    ∀ acc, gs.foldl (fun acc h =>
        match h with
        | GMember.poly r => acc ++ [r]
        | GMember.mpoly rs => acc ++ rs
        | _ => acc) acc = acc ++ polyMembers gs := by
  induction gs with
  | nil => intro acc; simp [polyMembers]
  | cons g t ih =>
    intro acc
    rw [List.foldl_cons]
    cases g with
    | poly r => rw [ih]; simp [polyMembers]
    | mpoly rs => rw [ih]; simp [polyMembers]
    | point p => rw [ih]; simp [polyMembers]
    | linestring pts => rw [ih]; simp [polyMembers]

/-- C3 (amended): Home.py's normalize passes polygons and multi-polygons
through unchanged, extracts and flattens the polygonal members of a
collection (single survivor rewrapped as a polygon, otherwise a
multi-polygon, absent when none survive), and maps points, lines and absent
input to absent; the FSA-page variant passes polygons and multi-polygons
through but maps every other input, including collections with polygonal
members, to absent. -/
theorem c3_normalize_characterization (r : List Pt) (rs : List (List Pt)) (gs : List GMember)
    (p : Pt) (pts : List Pt) :
    normalize_geom (some (.poly r)) = some (.poly r) ∧
    normalize_geom (some (.mpoly rs)) = some (.mpoly rs) ∧
    normalize_geom none = none ∧
    normalize_geom (some (.point p)) = none ∧
    normalize_geom (some (.linestring pts)) = none ∧
    normalize_geom (some (.collection gs)) =
      (match polyMembers gs with
       | [] => none
       | [r0] => some (Geom.poly r0)
       | rs0 => some (Geom.mpoly rs0)) ∧
    normalize_geom_fsa (some (.poly r)) = some (.poly r) ∧
    normalize_geom_fsa (some (.mpoly rs)) = some (.mpoly rs) ∧
    normalize_geom_fsa (some (.collection gs)) = none ∧
    normalize_geom_fsa (some (.point p)) = none ∧
    normalize_geom_fsa none = none := by
  refine ⟨rfl, rfl, rfl, rfl, rfl, ?_, rfl, rfl, rfl, rfl, rfl⟩
  show (match (geomsOf (Geom.collection gs)).foldl (fun acc h =>
      match h with
      | GMember.poly r => acc ++ [r]
      | GMember.mpoly rs => acc ++ rs
      | _ => acc) [] with
    | [] => none
    | [r] => some (Geom.poly r)
    | rs => some (Geom.mpoly rs)) =
      (match polyMembers gs with
       | [] => none
       | [r0] => some (Geom.poly r0)
       | rs0 => some (Geom.mpoly rs0))
  rw [show geomsOf (Geom.collection gs) = gs from rfl, collect_eq_polyMembers, List.nil_append]

/-- A concrete triangle ring. -/
def triRing : List Pt := [(0, 0), (1, 0), (0, 1)]

/-- C3 counterexample: on a heterogeneous collection whose single polygonal
member is a triangle, the FSA-page normalize returns absent instead of the
extracted polygon returned by Home.py's normalize, so the claimed behavior
fails for that cited implementation. -/
theorem c3_counterexample :
    normalize_geom_fsa (some (.collection [GMember.poly triRing, GMember.point (5, 5)])) = none ∧
    normalize_geom_fsa (some (.collection [GMember.poly triRing, GMember.point (5, 5)])) ≠
      some (.poly triRing) ∧
    normalize_geom (some (.collection [GMember.poly triRing, GMember.point (5, 5)])) =
      some (.poly triRing) := by
  refine ⟨rfl, by decide, by decide⟩

/-!  GeometryCodec: polygon_to_text (Home.py 62-72) and parse_polygon_text
(Home.py 92-120).  The textual payload is modeled structurally: the blank-line
split into parts, the newline split into lines and the comma split into
stripped fields are represented by a payload that is a list of parts, each
part a list of lines, each line a list of fields.  A field is blank
(whitespace-only, dropped by the comprehension filter before the field
count), a numeric literal, or text on which float() raises ValueError.
The empty-text early return of parse_polygon_text coincides with the empty
payload. -/

/-- A comma-separated field of a coordinate line after str.strip(). -/
inductive Tok where
  | blank
  | num (q : ℚ)
  | bad
  deriving DecidableEq

abbrev TLine := List Tok
abbrev TPart := List TLine
abbrev Payload := List TPart

/-- Rounding of a rational to the nearest integer (half away from zero is
immaterial here), written with floor division so that it evaluates. -/
def qRound (q : ℚ) : ℤ := Int.fdiv (2 * q.num + q.den) (2 * q.den)

/-- Fixed 8-decimal formatting of a coordinate: the rational value denoted by
the emitted "%.8f" literal. -/
def fmt8 (q : ℚ) : ℚ := (qRound (q * 100000000) : ℚ) / 100000000

theorem qRound_eq {q : ℚ} {z : ℤ} (h1 : (z : ℚ) ≤ q + 1 / 2) (h2 : q + 1 / 2 < (z : ℚ) + 1) :
    qRound q = z := by
  unfold qRound
  have hdpos : 0 < q.den := q.pos
  have hden : (0 : ℤ) < 2 * (q.den : ℤ) := by positivity
  have hdenQ : (0 : ℚ) < (q.den : ℚ) := by exact_mod_cast hdpos
  have key : q + 1 / 2 = ((2 * q.num + (q.den : ℤ) : ℤ) : ℚ) / ((2 * (q.den : ℤ) : ℤ) : ℚ) := by
    have hq : (q.num : ℚ) / (q.den : ℚ) = q := Rat.num_div_den q
    push_cast
    conv_lhs => rw [← hq]
    field_simp
    ring
  rw [key] at h1 h2
  have e1 : z * (2 * (q.den : ℤ)) ≤ 2 * q.num + (q.den : ℤ) := by
    have := (le_div_iff₀ (by positivity)).1 h1
    exact_mod_cast this
  have e2 : 2 * q.num + (q.den : ℤ) < (z + 1) * (2 * (q.den : ℤ)) := by
    have h2' : ((2 * q.num + (q.den : ℤ) : ℤ) : ℚ) / ((2 * (q.den : ℤ) : ℤ) : ℚ) < ((z + 1 : ℤ) : ℚ) := by
      push_cast
      push_cast at h2
      linarith
    have := (div_lt_iff₀ (by positivity)).1 h2'
    exact_mod_cast this
  rw [Int.fdiv_eq_ediv _ (by omega)]
  have lb : z ≤ (2 * q.num + (q.den : ℤ)) / (2 * (q.den : ℤ)) :=
    (Int.le_ediv_iff_mul_le hden).2 e1
  have ub : (2 * q.num + (q.den : ℤ)) / (2 * (q.den : ℤ)) < z + 1 :=
    (Int.ediv_lt_iff_lt_mul hden).2 e2
  omega

theorem fmt8_intCast (z : ℤ) : fmt8 ((z : ℚ)) = (z : ℚ) := by
  unfold fmt8
  have h : ((z : ℚ)) * 100000000 = ((100000000 * z : ℤ) : ℚ) := by push_cast; ring
  rw [h, qRound_eq (z := 100000000 * z) (by push_cast; linarith) (by push_cast; linarith)]
  push_cast
  rw [mul_comm, mul_div_assoc]
  norm_num

theorem fmt8_zero : fmt8 0 = 0 := by simpa using fmt8_intCast 0

theorem fmt8_one : fmt8 1 = 1 := by simpa using fmt8_intCast 1

/-- Models lines 103-113 of parse_polygon_text: drop blank fields, skip the
line when fewer than two fields remain or the first two fields fail float
parsing, otherwise yield the (lon, lat) point. -/
def parseLine (line : TLine) : Option Pt :=
  let fields := line.filter (fun t => t ≠ Tok.blank)
  if fields.length < 2 then none
  else
    match fields with
    | Tok.num lon :: Tok.num lat :: _ => some (lon, lat)
    | _ => none

/-- Models parse_polygon_text (Home.py 92-120): accumulate per part the
latitude-first rendering list and the longitude-first shapely ring, keep parts
with at least 3 valid points, and wrap zero / one / many surviving parts as
absent / polygon / multi-polygon. -/
def parse_polygon_text (payload : Payload) : Option (List (List Pt) × Geom) :=
  let st := payload.foldl (fun (acc : List (List Pt) × List (List Pt)) part =>
    let pts := part.foldl (fun (acc2 : List Pt × List Pt) line =>
      match parseLine line with
      | none => acc2
      | some (lon, lat) => (acc2.1 ++ [(lat, lon)], acc2.2 ++ [(lon, lat)])) ([], [])
    if 3 ≤ pts.2.length then (acc.1 ++ [pts.1], acc.2 ++ [pts.2]) else acc) ([], [])
  match st.2 with
  | [] => none
  | [p] => some (st.1, Geom.poly p)
  | ps => some (st.1, Geom.mpoly ps)

/-- The token line "lon,lat,0" emitted for one ring point (Home.py line 67). -/
def encLine (p : Pt) : TLine := [Tok.num (fmt8 p.1), Tok.num (fmt8 p.2), Tok.num 0]

/-- Models polygon_to_text (Home.py 62-72): one part per exterior ring, one
line per ring point; non-polygonal geometries produce the empty payload. -/
def polygon_to_text : Geom → Payload
  | .poly r => [r.map encLine]
  | .mpoly rs => rs.map (fun r => r.map encLine)
  | _ => []

/-- Swap a (lon, lat) point into (lat, lon) rendering order. -/
def swapPt (p : Pt) : Pt := (p.2, p.1)

/-- Follows the spec's words for Decode: per part keep the points of the lines
that parse, drop parts with fewer than 3 valid points, and wrap zero / one /
many surviving parts as absent / simple polygon / multi-polygon of all
surviving parts, alongside the latitude-first per-part lists. -/
def decodeSpec (payload : Payload) : Option (List (List Pt) × Geom) :=
  let survivors := (payload.map (fun part => part.filterMap parseLine)).filter
    (fun pts => 3 ≤ pts.length)
  match survivors with
  | [] => none
  | [p] => some ([p.map swapPt], Geom.poly p)
  | ps => some (ps.map (fun p => p.map swapPt), Geom.mpoly ps)

theorem inner_fold_eq (part : TPart) :
    ∀ acc2 : List Pt × List Pt,
      part.foldl (fun (acc2 : List Pt × List Pt) line =>
        match parseLine line with
        | none => acc2
        | some (lon, lat) => (acc2.1 ++ [(lat, lon)], acc2.2 ++ [(lon, lat)])) acc2
      = (acc2.1 ++ (part.filterMap parseLine).map swapPt,
         acc2.2 ++ part.filterMap parseLine) := by
  induction part with
  | nil => intro acc2; simp
  | cons line rest ih =>
    intro acc2
    rw [List.foldl_cons, List.filterMap_cons]
    cases hl : parseLine line with
    | none => rw [ih]
    | some p =>
      obtain ⟨lon, lat⟩ := p
      rw [ih]
      simp [swapPt]

theorem outer_fold_eq (payload : Payload) :
    ∀ acc : List (List Pt) × List (List Pt),
      payload.foldl (fun (acc : List (List Pt) × List (List Pt)) part =>
        let pts := part.foldl (fun (acc2 : List Pt × List Pt) line =>
          match parseLine line with
          | none => acc2
          | some (lon, lat) => (acc2.1 ++ [(lat, lon)], acc2.2 ++ [(lon, lat)])) ([], [])
        if 3 ≤ pts.2.length then (acc.1 ++ [pts.1], acc.2 ++ [pts.2]) else acc) acc
      = (acc.1 ++ ((payload.map (fun part => part.filterMap parseLine)).filter
            (fun pts => 3 ≤ pts.length)).map (fun p => p.map swapPt),
         acc.2 ++ (payload.map (fun part => part.filterMap parseLine)).filter
            (fun pts => 3 ≤ pts.length)) := by
  induction payload with
  | nil => intro acc; simp
  | cons part rest ih =>
    intro acc
    rw [List.foldl_cons, List.map_cons, List.filter_cons]
    rw [inner_fold_eq part ([], [])]
    simp only [List.nil_append]
    by_cases h3 : 3 ≤ (part.filterMap parseLine).length
    · rw [if_pos (by simpa using h3), if_pos (by simpa using h3), ih]
      simp
    · rw [if_neg (by simpa using h3), if_neg (by simpa using h3), ih]

theorem parse_eq_decodeSpec (payload : Payload) :
    parse_polygon_text payload = decodeSpec payload := by
  rw [parse_polygon_text, decodeSpec]
  rw [outer_fold_eq payload ([], [])]
  simp only [List.nil_append]
  cases hs : (payload.map (fun part => part.filterMap parseLine)).filter
      (fun pts => 3 ≤ pts.length) with
  | nil => rfl
  | cons p rest =>
    cases rest with
    | nil => simp
    | cons q rest2 => simp

/-- C2: decode skips malformed lines without aborting, drops parts with fewer
than 3 valid points, and returns absent / a simple polygon / a multi-polygon
of all surviving parts according to how many parts survive. -/
theorem c2_decode_behavior (payload : Payload) :
    parse_polygon_text payload = decodeSpec payload :=
  parse_eq_decodeSpec payload

/-- The exterior-ring point sequences of a geometry (polygonal kinds only). -/
def ringsOfG : Geom → List (List Pt)
  | .poly r => [r]
  | .mpoly rs => rs
  | _ => []

/-- The rings of a decode result; an absent result has no rings. -/
def ringsOfParse : Option (List (List Pt) × Geom) → List (List Pt)
  | none => []
  | some x => ringsOfG x.2

/-- Whether a geometry is a polygon or multi-polygon. -/
def isPolygonal : Geom → Bool
  | .poly _ => true
  | .mpoly _ => true
  | _ => false

theorem parseLine_encLine {p : Pt} (h1 : fmt8 p.1 = p.1) (h2 : fmt8 p.2 = p.2) :
    parseLine (encLine p) = some p := by
  show parseLine [Tok.num (fmt8 p.1), Tok.num (fmt8 p.2), Tok.num 0] = some p
  rw [h1, h2, parseLine]
  simp

theorem filterMap_parseLine_encLine {r : List Pt}
    (hst : ∀ p ∈ r, fmt8 p.1 = p.1 ∧ fmt8 p.2 = p.2) :
    (r.map encLine).filterMap parseLine = r := by
  induction r with
  | nil => rfl
  | cons p t ih =>
    rw [List.map_cons, List.filterMap_cons]
    have hp := hst p (List.mem_cons_self p t)
    rw [parseLine_encLine hp.1 hp.2]
    rw [ih (fun q hq => hst q (List.mem_cons_of_mem p hq))]

/-- C1 (amended): for every polygon or multi-polygon whose rings have at
least 3 points and whose coordinates are exactly representable at 8 decimal
places, decoding the encoded text yields exactly the same ring point
sequences; for other geometries, coordinates are quantized to 8 decimals by
the encoder and the round trip can change them (see the counterexample). -/
theorem c1_roundtrip (G : Geom) (hpoly : isPolygonal G = true)
    (hlen : ∀ r ∈ ringsOfG G, 3 ≤ r.length)
    (hst : ∀ r ∈ ringsOfG G, ∀ p ∈ r, fmt8 p.1 = p.1 ∧ fmt8 p.2 = p.2) :
    ringsOfParse (parse_polygon_text (polygon_to_text G)) = ringsOfG G := by
  rw [parse_eq_decodeSpec]
  cases G with
  | poly r =>
    have hr : (r.map encLine).filterMap parseLine = r :=
      filterMap_parseLine_encLine (hst r (by simp [ringsOfG]))
    have h3 : 3 ≤ r.length := hlen r (by simp [ringsOfG])
    rw [decodeSpec]
    simp only [polygon_to_text, List.map_cons, List.map_nil, hr]
    rw [List.filter_cons_of_pos (by simpa using h3)]
    simp [ringsOfParse, ringsOfG]
  | mpoly rs =>
    have hrs : rs.map (fun r => (r.map encLine).filterMap parseLine) = rs := by
      apply List.map_congr_left ?_ |>.trans (List.map_id rs)
      intro r hr
      exact filterMap_parseLine_encLine (hst r (by simpa [ringsOfG] using hr))
    have hfil : rs.filter (fun pts => decide (3 ≤ pts.length)) = rs := by
      apply List.filter_eq_self.2
      intro r hr
      simpa using hlen r (by simpa [ringsOfG] using hr)
    rw [decodeSpec]
    simp only [polygon_to_text, List.map_map]
    have hcomp : rs.map ((fun part => part.filterMap parseLine) ∘ (fun r => r.map encLine)) = rs := hrs
    rw [hcomp, hfil]
    cases rs with
    | nil => simp [ringsOfParse, ringsOfG]
    | cons p rest =>
      cases rest with
      | nil => simp [ringsOfParse, ringsOfG]
      | cons q rest2 => simp [ringsOfParse, ringsOfG]
  | point p => simp [isPolygonal] at hpoly
  | linestring pts => simp [isPolygonal] at hpoly
  | collection gs => simp [isPolygonal] at hpoly

theorem tri_stable :
    ∀ r ∈ ringsOfG (Geom.poly [(0, 0), (1, 0), (0, 1), (0, 0)]),
      ∀ p ∈ r, fmt8 p.1 = p.1 ∧ fmt8 p.2 = p.2 := by
  intro r hr p hp
  simp only [ringsOfG, List.mem_singleton] at hr
  subst hr
  simp only [List.mem_cons, List.not_mem_nil, or_false] at hp
  rcases hp with rfl | rfl | rfl | rfl <;> refine ⟨?_, ?_⟩ <;>
    first
      | exact fmt8_zero
      | exact fmt8_one

/-- Witness for C1: a concrete closed unit-triangle ring round-trips. -/
theorem c1_roundtrip_witness :
    (isPolygonal (Geom.poly [(0, 0), (1, 0), (0, 1), (0, 0)]) = true ∧
      (∀ r ∈ ringsOfG (Geom.poly [(0, 0), (1, 0), (0, 1), (0, 0)]), 3 ≤ r.length) ∧
      (∀ r ∈ ringsOfG (Geom.poly [(0, 0), (1, 0), (0, 1), (0, 0)]),
        ∀ p ∈ r, fmt8 p.1 = p.1 ∧ fmt8 p.2 = p.2)) ∧
    ringsOfParse (parse_polygon_text (polygon_to_text
        (Geom.poly [(0, 0), (1, 0), (0, 1), (0, 0)])))
      = ringsOfG (Geom.poly [(0, 0), (1, 0), (0, 1), (0, 0)]) :=
  ⟨⟨by decide, by decide, tri_stable⟩,
    c1_roundtrip (Geom.poly [(0, 0), (1, 0), (0, 1), (0, 0)])
      (by decide) (by decide) tri_stable⟩

/-- Spec-side canonical ring: drop the duplicated closing point if present. -/
def cring (r : List Pt) : List Pt :=
  if r ≠ [] ∧ r.getLast? = r.head? then r.dropLast else r

/-- Spec-side ring equivalence: equal ignoring point-ordering direction and
closing-point duplication. -/
def ringEqv (a b : List Pt) : Bool :=
  decide (cring a = cring b) || decide (cring a = (cring b).reverse)

/-- Spec-side equality of ring sets up to `ringEqv`. -/
def ringSetEqv (as bs : List (List Pt)) : Bool :=
  as.all (fun a => bs.any (fun b => ringEqv a b)) &&
    bs.all (fun b => as.any (fun a => ringEqv a b))

/-- The coordinate 1 + 10^-9, written in lowest terms so that it evaluates. -/
def epsQ : ℚ := Rat.mk' 1000000001 1000000000 (by norm_num) (by norm_num)

theorem epsQ_eq : epsQ = 1 + 1 / 1000000000 := by
  rw [epsQ, Rat.mk'_eq_divInt, Rat.divInt_eq_div]
  norm_num

theorem fmt8_epsQ : fmt8 epsQ = 1 := by
  unfold fmt8
  have h : epsQ * 100000000 = 100000000 + 1 / 10 := by
    rw [epsQ_eq]; norm_num
  rw [h]
  rw [qRound_eq (z := 100000000) (by push_cast; linarith) (by push_cast; linarith)]
  norm_num

/-- C1 counterexample: a simple triangle with a coordinate that is not
8-decimal-representable is changed by encode followed by decode: the decoded
ring set is not equivalent to the original even ignoring direction and
closing-point duplication. -/
theorem c1_counterexample :
    ringSetEqv
      (ringsOfParse (parse_polygon_text (polygon_to_text
        (Geom.poly [(0, 0), (1, 0), (0, epsQ), (0, 0)]))))
      (ringsOfG (Geom.poly [(0, 0), (1, 0), (0, epsQ), (0, 0)])) = false := by
  have hpt : polygon_to_text (Geom.poly [(0, 0), (1, 0), (0, epsQ), (0, 0)]) =
      [[[Tok.num 0, Tok.num 0, Tok.num 0], [Tok.num 1, Tok.num 0, Tok.num 0],
        [Tok.num 0, Tok.num 1, Tok.num 0], [Tok.num 0, Tok.num 0, Tok.num 0]]] := by
    simp [polygon_to_text, encLine, fmt8_zero, fmt8_one, fmt8_epsQ]
  rw [hpt]
  decide

/-!  Bulk range renumbering ("pages/Modifier plage routes bulk.py").
A route carries the fields the page touches; `representative` is either a
route-name string (app9-style documents) or a boolean flag (documents
produced by "pages/Creation configuration.py", where the first route gets
the flag true). -/

/-- The representative field: string in by-name documents, boolean in
by-flag documents. -/
inductive RepVal where
  | ofStr (s : Str)
  | ofBool (b : Bool)
  deriving DecidableEq

/-- A route as read by the bulk page. -/
structure BRoute where
  name : Str
  adjacentRoutes : Str
  representative : RepVal
  deriving DecidableEq

/-- A graph node as read by the bulk page. -/
structure BNode where
  label : Str
  deriving DecidableEq

/-- The Python exception raised when strip or re.split is applied to a
boolean representative. -/
inductive PyError where
  | typeError
  deriving DecidableEq

/-- A Python dict from strings to strings, modeled as an assoc list whose
most recent binding comes first. -/
abbrev Dict := List (Str × Str)

/-- Dict assignment. -/
def dset (m : Dict) (k v : Str) : Dict := (k, v) :: m

/-- Dict lookup. -/
def dget? (m : Dict) (k : Str) : Option Str :=
  (m.find? (fun p => decide (p.1 = k))).map (fun p => p.2)

/-- Models `m.get(k, d)`. -/
def dgetD (m : Dict) (k d : Str) : Str := (dget? m k).getD d

theorem dget?_dset_self (m : Dict) (k v : Str) : dget? (dset m k v) k = some v := by
  unfold dget? dset
  rw [List.find?_cons_of_pos _ (by simp)]
  rfl

theorem dget?_dset_ne (m : Dict) (k v k' : Str) (h : k' ≠ k) :
    dget? (dset m k v) k' = dget? m k' := by
  unfold dget? dset
  rw [List.find?_cons_of_neg _ (by simpa using fun he => h he.symm)]

/-- Models re.match(prefix + r"\d+", name): the prefix followed by at least
one digit (unanchored at the end). -/
def matchesRoute (pfx name : Str) : Bool :=
  pfx.isPrefixOf name &&
    (match name.drop pfx.length with
     | [] => false
     | c :: _ => c.isDigit)

/-- Step 2 of the bulk page (lines 83-95): build the old-name to new-name
dict over the routes in document order, consuming one number per
prefix-matching route. -/
def buildMappingAux (pfx : Str) (gap : ℕ) : Dict → ℕ → List Str → Dict
  | m, _, [] => m
  | m, cur, n :: ns =>
    if matchesRoute pfx n then
      buildMappingAux pfx gap (dset m n (pfx ++ decChars cur)) (cur + gap) ns
    else
      buildMappingAux pfx gap m cur ns

/-- The name_mapping dict of the bulk page. -/
def name_mapping (pfx : Str) (gap minNew : ℕ) (names : List Str) : Dict :=
  buildMappingAux pfx gap [] minNew names

/-- Step 3 of the bulk page (lines 97-106): rename every route whose old
name is a key of the mapping. -/
def renameRoutes (m : Dict) (routes : List BRoute) : List BRoute :=
  routes.map (fun r =>
    match dget? m r.name with
    | some n => { r with name := n }
    | none => r)

/-- The stripped non-empty tokens of a semicolon/comma-separated reference
string (lines 113-114, and again in the closure check, lines 153-154). -/
def adjTokens (s : Str) : List Str :=
  ((splitSepChars s).map pstrip).filter (fun t => t ≠ [])

/-- The adjacency half of step 4 (lines 111-117): tokenwise remap of a
truthy adjacentRoutes string. -/
def adjustAdj (m : Dict) (r : BRoute) : BRoute :=
  if r.adjacentRoutes ≠ [] then
    { r with adjacentRoutes :=
        joinComma ((adjTokens r.adjacentRoutes).map (fun a => dgetD m a a)) }
  else r

/-- Step 4 for one route (lines 109-123): rewrite adjacentRoutes tokenwise,
then remap a truthy string representative through the mapping; a truthy
boolean representative raises a TypeError (strip on a bool). -/
def adjustRoute (m : Dict) (r : BRoute) : Except PyError BRoute :=
  let r1 := adjustAdj m r
  match r1.representative with
  | RepVal.ofStr s =>
    if s ≠ [] then
      match dget? m (pstrip s) with
      | some v => Except.ok { r1 with representative := RepVal.ofStr v }
      | none => Except.ok r1
    else Except.ok r1
  | RepVal.ofBool b => if b then Except.error PyError.typeError else Except.ok r1

/-- Step 5 for one node (lines 126-133): tokenwise remap of a non-empty
label (empty tokens are kept as-is by the list comprehension). -/
def updateLabel (m : Dict) (nd : BNode) : BNode :=
  if nd.label = [] then nd
  else { label := joinComma ((splitSepChars nd.label).map (fun p => dgetD m (pstrip p) (pstrip p))) }

/-- The dynamic range validation (lines 56-64); the number inputs have
min_value 0, so over naturals only min < max is checked. -/
def valid_range (newMin newMax : ℕ) : Bool := decide (newMin < newMax)

/-- Steps 2-5 of the bulk update, with the adjust checkbox on (its default):
build the mapping, rename the routes, rewrite adjacencies and
representatives, rewrite the node labels. -/
def bulkUpdate (pfx : Str) (gap minNew : ℕ) (routes : List BRoute) (nodes : List BNode) :
    Except PyError (List BRoute × List BNode) := do
  let m := name_mapping pfx gap minNew (routes.map BRoute.name)
  let routes1 := renameRoutes m routes
  let routes2 ← routes1.mapM (adjustRoute m)
  pure (routes2, nodes.map (updateLabel m))

/-- The reference tokens of one route inspected by the closure check
(lines 150-156); re.split on a truthy boolean representative raises. -/
def routeRefTokens (r : BRoute) : Except PyError (List Str) :=
  let adjToks := if r.adjacentRoutes ≠ [] then adjTokens r.adjacentRoutes else []
  match r.representative with
  | RepVal.ofStr s => Except.ok (adjToks ++ (if s ≠ [] then adjTokens s else []))
  | RepVal.ofBool b => if b then Except.error PyError.typeError else Except.ok adjToks

/-- The label tokens of one node inspected by the closure check
(lines 158-163). -/
def nodeRefTokens (nd : BNode) : List Str := adjTokens nd.label

/-- Step 7 closure check (lines 146-163): the set of reference tokens that
do not resolve to any current route name. -/
def broken_refs (routes : List BRoute) (nodes : List BNode) : Except PyError (Finset Str) := do
  let tokss ← routes.mapM routeRefTokens
  let names := routes.map BRoute.name
  pure (((tokss.flatten ++ (nodes.map nodeRefTokens).flatten).filter
    (fun t => decide (t ∉ names))).toFinset)

theorem mapM_error_of_mem {α β : Type} {f : α → Except PyError β} {l : List α} {x : α}
    (hx : x ∈ l) (hfx : f x = Except.error PyError.typeError) :
    l.mapM f = Except.error PyError.typeError := by
  induction l with
  | nil => simp at hx
  | cons a t ih =>
    rcases List.mem_cons.1 hx with rfl | hmem
    · rw [List.mapM_cons, hfx]
      rfl
    · cases hfa : f a with
      | error e =>
        cases e
        rw [List.mapM_cons, hfa]
        rfl
      | ok y =>
        rw [List.mapM_cons, hfa]
        show Except.bind (Except.ok y) _ = _
        simp only [Except.bind]
        rw [ih hmem]
        rfl

theorem mapM_ok_of_forall {α β : Type} {f : α → Except PyError β} {g : α → β} :
    ∀ {l : List α}, (∀ x ∈ l, f x = Except.ok (g x)) → l.mapM f = Except.ok (l.map g) := by
  intro l
  induction l with
  | nil => intro _; rfl
  | cons a t ih =>
    intro h
    rw [List.mapM_cons, h a (List.mem_cons_self a t)]
    show Except.bind (Except.ok (g a)) _ = _
    simp only [Except.bind]
    rw [ih (fun x hx => h x (List.mem_cons_of_mem a hx))]
    rfl

theorem mem_buildMappingAux {pfx : Str} {gap : ℕ} :
    ∀ (ns : List Str) (m : Dict) (cur : ℕ) (p : Str × Str),
      p ∈ buildMappingAux pfx gap m cur ns →
      p ∈ m ∨ (matchesRoute pfx p.1 = true ∧ ∃ c, p.2 = pfx ++ decChars c) := by
  intro ns
  induction ns with
  | nil => intro m cur p hp; exact Or.inl hp
  | cons n t ih =>
    intro m cur p hp
    rw [buildMappingAux] at hp
    split at hp
    · next hm =>
      rcases ih _ _ _ hp with hin | hr
      · rcases List.mem_cons.1 hin with rfl | hin2
        · exact Or.inr ⟨hm, cur, rfl⟩
        · exact Or.inl hin2
      · exact Or.inr hr
    · exact ih _ _ _ hp

theorem dget?_buildMappingAux_of_not_mem {pfx : Str} {gap : ℕ} {k : Str} :
    ∀ (ns : List Str) (m : Dict) (cur : ℕ),
      (∀ n ∈ ns, matchesRoute pfx n = true → n ≠ k) →
      dget? (buildMappingAux pfx gap m cur ns) k = dget? m k := by
  intro ns
  induction ns with
  | nil => intros; rfl
  | cons n t ih =>
    intro m cur h
    rw [buildMappingAux]
    by_cases hm : matchesRoute pfx n
    · rw [if_pos hm, ih _ _ (fun x hx hmx => h x (List.mem_cons_of_mem n hx) hmx)]
      exact dget?_dset_ne _ _ _ _ (fun he => (h n (List.mem_cons_self n t) hm) he.symm)
    · rw [if_neg hm]
      exact ih _ _ (fun x hx hmx => h x (List.mem_cons_of_mem n hx) hmx)

theorem dget?_none_of_not_matching {pfx : Str} {gap : ℕ} {k : Str}
    {ns : List Str} {m : Dict} {cur : ℕ}
    (hm : ∀ p ∈ m, matchesRoute pfx p.1 = true)
    (hk : matchesRoute pfx k = false) :
    dget? (buildMappingAux pfx gap m cur ns) k = none := by
  cases hfind : dget? (buildMappingAux pfx gap m cur ns) k with
  | none => rfl
  | some v =>
    exfalso
    unfold dget? at hfind
    rcases hmap : (buildMappingAux pfx gap m cur ns).find? (fun p => decide (p.1 = k)) with _ | p
    · rw [hmap] at hfind; simp at hfind
    · have hpk : p.1 = k := by simpa using List.find?_some hmap
      have hpmem := List.mem_of_find?_eq_some hmap
      rcases mem_buildMappingAux ns m cur p hpmem with hin | ⟨hmt, _⟩
      · have hptrue := hm p hin
        rw [hpk] at hptrue
        rw [hptrue] at hk
        simp at hk
      · rw [hpk] at hmt
        rw [hmt] at hk
        simp at hk

/-- Follows the spec's words for the bulk renumber: a positional
re-sequencing in which the Nth prefix-matching name (in document order)
becomes the prefix followed by minNew + N * gap, and non-matching names are
untouched. -/
def specRenumber (pfx : Str) (gap : ℕ) : ℕ → List Str → List Str
  | _, [] => []
  | cur, n :: ns =>
    if matchesRoute pfx n then (pfx ++ decChars cur) :: specRenumber pfx gap (cur + gap) ns
    else n :: specRenumber pfx gap cur ns

theorem renameRoutes_names {pfx : Str} {gap : ℕ} :
    ∀ (routes : List BRoute) (m : Dict) (cur : ℕ),
      (∀ p ∈ m, matchesRoute pfx p.1 = true) →
      ((routes.map BRoute.name).filter (fun n => matchesRoute pfx n)).Nodup →
      (renameRoutes (buildMappingAux pfx gap m cur (routes.map BRoute.name)) routes).map BRoute.name
        = specRenumber pfx gap cur (routes.map BRoute.name) := by
  intro routes
  induction routes with
  | nil => intros; rfl
  | cons r rs ih =>
    intro m cur hm hnd
    rw [List.map_cons, buildMappingAux, specRenumber]
    by_cases hmt : matchesRoute pfx r.name
    · rw [if_pos hmt, if_pos hmt]
      rw [List.map_cons, List.filter_cons_of_pos (by simpa using hmt), List.nodup_cons] at hnd
      have hlook : dget? (buildMappingAux pfx gap (dset m r.name (pfx ++ decChars cur)) (cur + gap)
          (rs.map BRoute.name)) r.name = some (pfx ++ decChars cur) := by
        rw [dget?_buildMappingAux_of_not_mem _ _ _ (fun n hn hmn => by
          intro he
          subst he
          exact hnd.1 (List.mem_filter.2 ⟨hn, by simpa using hmn⟩))]
        exact dget?_dset_self _ _ _
      rw [renameRoutes, List.map_cons, List.map_cons, hlook]
      have htail := ih (dset m r.name (pfx ++ decChars cur)) (cur + gap)
        (by
          intro p hp
          rcases List.mem_cons.1 hp with rfl | hp2
          · exact hmt
          · exact hm p hp2)
        hnd.2
      rw [renameRoutes] at htail
      exact congrArg₂ List.cons rfl htail
    · rw [if_neg hmt, if_neg hmt]
      rw [List.map_cons, List.filter_cons_of_neg (by simpa using hmt)] at hnd
      have hlook : dget? (buildMappingAux pfx gap m cur (rs.map BRoute.name)) r.name = none :=
        dget?_none_of_not_matching hm (by simpa using hmt)
      rw [renameRoutes, List.map_cons, List.map_cons, hlook]
      have htail := ih m cur hm hnd
      rw [renameRoutes] at htail
      exact congrArg₂ List.cons rfl htail

/-- C4: the bulk renumber assigns every prefix-matching route, taken in
document order, the sequential numbers minNew, minNew + gap, minNew + 2*gap,
... regardless of the routes' old numeric values, and leaves every other
route name unchanged. -/
theorem c4_positional_renumber (pfx : Str) (gap minNew : ℕ) (routes : List BRoute)
    (hnd : ((routes.map BRoute.name).filter (fun n => matchesRoute pfx n)).Nodup) :
    (renameRoutes (name_mapping pfx gap minNew (routes.map BRoute.name)) routes).map BRoute.name
      = specRenumber pfx gap minNew (routes.map BRoute.name) :=
  renameRoutes_names routes [] minNew (fun p hp => absurd hp (List.not_mem_nil p)) hnd

/-- Witness for C4: the spec's scenario, MONT1500/1505/1510 remapped to the
range starting at 2000 with gap 5 become MONT2000/2005/2010 in order. -/
theorem c4_positional_renumber_witness :
    ((([⟨("MONT1500").data, [], RepVal.ofStr []⟩, ⟨("MONT1505").data, [], RepVal.ofStr []⟩,
        ⟨("MONT1510").data, [], RepVal.ofStr []⟩] : List BRoute).map BRoute.name).filter
      (fun n => matchesRoute ("MONT").data n)).Nodup ∧
    (renameRoutes (name_mapping ("MONT").data 5 2000
        (([⟨("MONT1500").data, [], RepVal.ofStr []⟩, ⟨("MONT1505").data, [], RepVal.ofStr []⟩,
          ⟨("MONT1510").data, [], RepVal.ofStr []⟩] : List BRoute).map BRoute.name))
      [⟨("MONT1500").data, [], RepVal.ofStr []⟩, ⟨("MONT1505").data, [], RepVal.ofStr []⟩,
        ⟨("MONT1510").data, [], RepVal.ofStr []⟩]).map BRoute.name
      = [("MONT2000").data, ("MONT2005").data, ("MONT2010").data] :=
  ⟨by decide,
    (c4_positional_renumber ("MONT").data 5 2000
      [⟨("MONT1500").data, [], RepVal.ofStr []⟩, ⟨("MONT1505").data, [], RepVal.ofStr []⟩,
        ⟨("MONT1510").data, [], RepVal.ofStr []⟩] (by decide)).trans (by decide)⟩

theorem specRenumber_mem {pfx : Str} {gap : ℕ} :
    ∀ (names : List Str) (cur i : ℕ),
      i < (names.filter (fun n => matchesRoute pfx n)).length →
      (pfx ++ decChars (cur + i * gap)) ∈ specRenumber pfx gap cur names := by
  intro names
  induction names with
  | nil => intro cur i h; simp at h
  | cons n t ih =>
    intro cur i h
    rw [specRenumber]
    by_cases hm : matchesRoute pfx n
    · rw [if_pos hm]
      rw [List.filter_cons_of_pos (by simpa using hm), List.length_cons] at h
      cases i with
      | zero =>
        simp only [Nat.zero_mul, Nat.add_zero]
        exact List.mem_cons_self _ _
      | succ j =>
        refine List.mem_cons_of_mem _ ?_
        have := ih (cur + gap) j (by omega)
        rwa [show cur + gap + j * gap = cur + (j + 1) * gap by ring] at this
    · rw [if_neg hm]
      rw [List.filter_cons_of_neg (by simpa using hm)] at h
      exact List.mem_cons_of_mem _ (ih cur i h)

/-- C9: the bulk renumber never consults the new range maximum.  Whenever the
prefix-matching route count n satisfies minNew + (n-1)*gap > maxNew, the
validation still passes (it checks only minNew < maxNew, and the number
inputs are non-negative by construction) and some route is renamed to a
number strictly greater than maxNew. -/
theorem c9_max_not_enforced (pfx : Str) (gap minNew maxNew : ℕ) (routes : List BRoute)
    (hnd : ((routes.map BRoute.name).filter (fun n => matchesRoute pfx n)).Nodup)
    (hn : 0 < ((routes.map BRoute.name).filter (fun n => matchesRoute pfx n)).length)
    (hover : maxNew < minNew +
      (((routes.map BRoute.name).filter (fun n => matchesRoute pfx n)).length - 1) * gap)
    (hmm : minNew < maxNew) :
    valid_range minNew maxNew = true ∧
      ∃ nm ∈ (renameRoutes (name_mapping pfx gap minNew (routes.map BRoute.name)) routes).map
          BRoute.name, ∃ k, nm = pfx ++ decChars k ∧ maxNew < k := by
  constructor
  · simpa [valid_range] using hmm
  · rw [c4_positional_renumber pfx gap minNew routes hnd]

    exact ⟨pfx ++ decChars (minNew +
        (((routes.map BRoute.name).filter (fun n => matchesRoute pfx n)).length - 1) * gap),
      specRenumber_mem _ minNew _ (by omega),
      _, rfl, hover⟩

/-- Witness for C9: three matching routes remapped into 2000..2005 with
gap 5 overflow the maximum (2010 > 2005). -/
theorem c9_max_not_enforced_witness :
    (((([⟨("MONT1500").data, [], RepVal.ofStr []⟩, ⟨("MONT1505").data, [], RepVal.ofStr []⟩,
        ⟨("MONT1510").data, [], RepVal.ofStr []⟩] : List BRoute).map BRoute.name).filter
      (fun n => matchesRoute ("MONT").data n)).Nodup ∧
      0 < ((([⟨("MONT1500").data, [], RepVal.ofStr []⟩, ⟨("MONT1505").data, [], RepVal.ofStr []⟩,
        ⟨("MONT1510").data, [], RepVal.ofStr []⟩] : List BRoute).map BRoute.name).filter
          (fun n => matchesRoute ("MONT").data n)).length ∧
      (2005 : ℕ) < 2000 + ((([⟨("MONT1500").data, [], RepVal.ofStr []⟩,
        ⟨("MONT1505").data, [], RepVal.ofStr []⟩,
        ⟨("MONT1510").data, [], RepVal.ofStr []⟩] : List BRoute).map BRoute.name).filter
          (fun n => matchesRoute ("MONT").data n)).length.pred * 5 ∧
      (2000 : ℕ) < 2005) ∧
    (valid_range 2000 2005 = true ∧
      ∃ nm ∈ (renameRoutes (name_mapping ("MONT").data 5 2000
          (([⟨("MONT1500").data, [], RepVal.ofStr []⟩, ⟨("MONT1505").data, [], RepVal.ofStr []⟩,
            ⟨("MONT1510").data, [], RepVal.ofStr []⟩] : List BRoute).map BRoute.name))
          [⟨("MONT1500").data, [], RepVal.ofStr []⟩, ⟨("MONT1505").data, [], RepVal.ofStr []⟩,
            ⟨("MONT1510").data, [], RepVal.ofStr []⟩]).map BRoute.name,
        ∃ k, nm = ("MONT").data ++ decChars k ∧ 2005 < k) :=
  ⟨by refine ⟨by decide, by decide, by decide, by decide⟩,
    c9_max_not_enforced ("MONT").data 5 2000 2005
      [⟨("MONT1500").data, [], RepVal.ofStr []⟩, ⟨("MONT1505").data, [], RepVal.ofStr []⟩,
        ⟨("MONT1510").data, [], RepVal.ofStr []⟩]
      (by decide) (by decide) (by decide) (by decide)⟩

/-- C10: if any route's representative is the boolean true, as the manual
configuration creator emits for its first route, the bulk update raises a
TypeError (strip called on a bool) instead of leaving the field unchanged or
reporting it. -/
theorem c10_bool_representative_raises (pfx : Str) (gap minNew : ℕ)
    (routes : List BRoute) (nodes : List BNode)
    (h : ∃ r ∈ routes, r.representative = RepVal.ofBool true) :
    bulkUpdate pfx gap minNew routes nodes = Except.error PyError.typeError := by
  obtain ⟨r, hr, hrep⟩ := h
  simp only [bulkUpdate]
  have hr1 : ∃ r1 ∈ renameRoutes (name_mapping pfx gap minNew (routes.map BRoute.name)) routes,
      r1.representative = RepVal.ofBool true := by
    refine ⟨_, List.mem_map.2 ⟨r, hr, rfl⟩, ?_⟩
    cases hd : dget? (name_mapping pfx gap minNew (routes.map BRoute.name)) r.name <;>
      simp [hd, hrep]
  obtain ⟨r1, hmem, hrep1⟩ := hr1
  have herr : adjustRoute (name_mapping pfx gap minNew (routes.map BRoute.name)) r1
      = Except.error PyError.typeError := by
    have hkeep : (adjustAdj (name_mapping pfx gap minNew (routes.map BRoute.name)) r1).representative
        = RepVal.ofBool true := by
      unfold adjustAdj
      by_cases hadj : r1.adjacentRoutes ≠ [] <;> simp [hadj, hrep1]
    simp only [adjustRoute, hkeep]
    rfl
  rw [mapM_error_of_mem hmem herr]
  rfl

/-- A route object as produced by the manual configuration creator
("pages/Creation configuration.py" lines 130-135): adjacentRoutes is empty
and representative is the boolean flag i == 1. -/
def mkManualRoute (nm : Str) (i : ℕ) : BRoute :=
  { name := nm, adjacentRoutes := [], representative := RepVal.ofBool (decide (i = 1)) }

/-- Witness for C10: a two-route by-flag document from the manual creator. -/
theorem c10_bool_representative_raises_witness :
    (∃ r ∈ [mkManualRoute ("MONT1500").data 1, mkManualRoute ("MONT1505").data 2],
        r.representative = RepVal.ofBool true) ∧
    bulkUpdate ("MONT").data 5 2000
        [mkManualRoute ("MONT1500").data 1, mkManualRoute ("MONT1505").data 2] []
      = Except.error PyError.typeError :=
  ⟨by decide,
    c10_bool_representative_raises ("MONT").data 5 2000
      [mkManualRoute ("MONT1500").data 1, mkManualRoute ("MONT1505").data 2] [] (by decide)⟩

/-!  Infrastructure for the closure-check claim (C5). -/

/-- A clean token: non-empty, strip-stable, separator-free — the shape of a
token that the closure check recovers verbatim from a stored string. -/
def cleanTok (t : Str) : Prop :=
  t ≠ [] ∧ pstrip t = t ∧ ∀ c ∈ t, isSepChar c = false

/-- The shape the regex r"([A-Z]+)\|..." guarantees for the parsed prefix. -/
@[reducible] def PfxOk (pfx : Str) : Prop := pfx ≠ [] ∧ ∀ c ∈ pfx, c.isUpper = true

theorem mem_pstrip {c : Char} {s : Str} (h : c ∈ pstrip s) : c ∈ s := by
  unfold pstrip at h
  rw [List.mem_reverse] at h
  have h2 := (List.dropWhile_sublist Char.isWhitespace).mem h
  rw [List.mem_reverse] at h2
  exact (List.dropWhile_sublist Char.isWhitespace).mem h2

theorem pstrip_nil : pstrip [] = [] := rfl

theorem adjTokens_nil : adjTokens [] = [] := rfl

theorem adjTokens_props {s t : Str} (ht : t ∈ adjTokens s) : cleanTok t := by
  unfold adjTokens at ht
  rw [List.mem_filter] at ht
  obtain ⟨hmem, hne⟩ := ht
  rw [List.mem_map] at hmem
  obtain ⟨piece, hpiece, rfl⟩ := hmem
  refine ⟨by simpa using hne, pstrip_idem piece, ?_⟩
  intro c hc
  exact mem_splitSepChars_sepFree hpiece (mem_pstrip hc)

theorem newName_clean {pfx : Str} (hpfx : PfxOk pfx) (k : ℕ) : cleanTok (pfx ++ decChars k) := by
  obtain ⟨hne, hup⟩ := hpfx
  refine ⟨by simp [hne], ?_, ?_⟩
  · apply pstrip_eq_self
    · intro c hc
      cases pfx with
      | nil => exact absurd rfl hne
      | cons a t =>
        simp only [List.cons_append, List.head?_cons, Option.some_inj] at hc
        subst hc
        exact isUpper_not_whitespace (hup a (List.mem_cons_self a t))
    · intro c hc
      rw [List.getLast?_append] at hc
      rcases hlast : (decChars k).getLast? with _ | d
      · exact absurd (List.getLast?_eq_none_iff.1 hlast) decChars_ne_nil
      · rw [hlast] at hc
        simp only [Option.or, Option.some_inj] at hc
        subst hc
        have hd : d ∈ decChars k := List.mem_of_mem_getLast? hlast
        exact isDigit_not_whitespace (decChars_isDigit hd)
  · intro c hc
    rcases List.mem_append.1 hc with h | h
    · exact isUpper_not_sep (hup c h)
    · exact isDigit_not_sep (decChars_isDigit h)

theorem matchesRoute_append_decChars (pfx : Str) (k : ℕ) :
    matchesRoute pfx (pfx ++ decChars k) = true := by
  unfold matchesRoute
  rw [Bool.and_eq_true]
  constructor
  · exact List.isPrefixOf_iff_prefix.2 (List.prefix_append pfx (decChars k))
  · rw [List.drop_left]
    rcases hd : decChars k with _ | ⟨c, t⟩
    · exact absurd hd decChars_ne_nil
    · have : c ∈ decChars k := by rw [hd]; exact List.mem_cons_self c t
      simpa using decChars_isDigit this

theorem matchesRoute_nil {pfx : Str} (h : pfx ≠ []) : matchesRoute pfx [] = false := by
  unfold matchesRoute
  cases pfx with
  | nil => exact absurd rfl h
  | cons a t => rfl

theorem dget?_name_mapping_value {pfx : Str} {gap minNew : ℕ} {names : List Str} {k v : Str}
    (h : dget? (name_mapping pfx gap minNew names) k = some v) :
    ∃ c, v = pfx ++ decChars c := by
  unfold dget? at h
  rcases hf : (name_mapping pfx gap minNew names).find? (fun p => decide (p.1 = k)) with _ | p
  · rw [hf] at h; simp at h
  · rw [hf] at h
    have hv : p.2 = v := by simpa using h
    subst hv
    have hmem := List.mem_of_find?_eq_some hf
    rcases mem_buildMappingAux names [] minNew p hmem with hin | ⟨_, c, hc⟩
    · exact absurd hin (List.not_mem_nil p)
    · exact ⟨c, hc⟩

theorem dget?_name_mapping_key {pfx : Str} {gap minNew : ℕ} {names : List Str} {k v : Str}
    (h : dget? (name_mapping pfx gap minNew names) k = some v) :
    matchesRoute pfx k = true := by
  by_cases hk : matchesRoute pfx k = true
  · exact hk
  · unfold name_mapping at h
    rw [dget?_none_of_not_matching (fun p hp => absurd hp (List.not_mem_nil p))
      (Bool.eq_false_iff.2 hk)] at h
    exact absurd h (by simp)

/-- Every mapping value is clean (it is `pfx` followed by decimal digits). -/
theorem dget?_name_mapping_clean {pfx : Str} {gap minNew : ℕ} {names : List Str}
    (hpfx : PfxOk pfx) {k v : Str}
    (h : dget? (name_mapping pfx gap minNew names) k = some v) : cleanTok v := by
  obtain ⟨c, rfl⟩ := dget?_name_mapping_value h
  exact newName_clean hpfx c

theorem dget?_name_mapping_nil {pfx : Str} {gap minNew : ℕ} {names : List Str}
    (hpfx : PfxOk pfx) :
    dget? (name_mapping pfx gap minNew names) [] = none :=
  dget?_none_of_not_matching (fun p hp => absurd hp (List.not_mem_nil p))
    (matchesRoute_nil hpfx.1)

theorem renameRoutes_map_name (m : Dict) (routes : List BRoute) :
    (renameRoutes m routes).map BRoute.name
      = (routes.map BRoute.name).map (fun n => dgetD m n n) := by
  unfold renameRoutes
  rw [List.map_map, List.map_map]
  apply List.map_congr_left
  intro r _
  show BRoute.name (match dget? m r.name with
    | some n => { r with name := n }
    | none => r) = dgetD m r.name r.name
  cases hd : dget? m r.name <;> simp [dgetD, hd]

theorem renameRoutes_fields {m : Dict} {routes : List BRoute} {r1 : BRoute}
    (h : r1 ∈ renameRoutes m routes) :
    ∃ r ∈ routes, r1.adjacentRoutes = r.adjacentRoutes ∧
      r1.representative = r.representative := by
  unfold renameRoutes at h
  rw [List.mem_map] at h
  obtain ⟨r, hr, hEq⟩ := h
  refine ⟨r, hr, ?_⟩
  subst hEq
  cases hd : dget? m r.name <;> simp [hd]

theorem adjustAdj_name (m : Dict) (r : BRoute) : (adjustAdj m r).name = r.name := by
  unfold adjustAdj
  split <;> rfl

theorem adjustAdj_rep (m : Dict) (r : BRoute) :
    (adjustAdj m r).representative = r.representative := by
  unfold adjustAdj
  split <;> rfl

theorem adjustAdj_adjacent (m : Dict) (r : BRoute) :
    (adjustAdj m r).adjacentRoutes =
      (if r.adjacentRoutes ≠ [] then
        joinComma ((adjTokens r.adjacentRoutes).map (fun a => dgetD m a a))
      else r.adjacentRoutes) := by
  unfold adjustAdj
  split <;> rfl

/-- The pure result of adjustRoute on a route whose representative is a
string (the only case in which no exception is raised). -/
def adjustRouteF (m : Dict) (r : BRoute) : BRoute :=
  let r1 := adjustAdj m r
  match r1.representative with
  | RepVal.ofStr s =>
    if s ≠ [] then
      match dget? m (pstrip s) with
      | some v => { r1 with representative := RepVal.ofStr v }
      | none => r1
    else r1
  | RepVal.ofBool _ => r1

theorem adjustRoute_ok {m : Dict} {r : BRoute} {s : Str}
    (h : r.representative = RepVal.ofStr s) :
    adjustRoute m r = Except.ok (adjustRouteF m r) := by
  simp only [adjustRoute, adjustRouteF, adjustAdj_rep, h]
  by_cases hs : s ≠ []
  · rw [if_pos hs, if_pos hs]
    cases hd : dget? m (pstrip s) <;> rfl
  · rw [if_neg hs, if_neg hs]

theorem adjustRouteF_name (m : Dict) (r : BRoute) : (adjustRouteF m r).name = r.name := by
  simp only [adjustRouteF]
  split
  · split
    · split <;> exact adjustAdj_name m r
    · exact adjustAdj_name m r
  · exact adjustAdj_name m r

theorem adjustRouteF_adjacent (m : Dict) (r : BRoute) :
    (adjustRouteF m r).adjacentRoutes =
      (if r.adjacentRoutes ≠ [] then
        joinComma ((adjTokens r.adjacentRoutes).map (fun a => dgetD m a a))
      else r.adjacentRoutes) := by
  rw [← adjustAdj_adjacent]
  simp only [adjustRouteF]
  split
  · split
    · split <;> rfl
    · rfl
  · rfl

theorem adjustRouteF_rep {m : Dict} {r : BRoute} {s : Str}
    (h : r.representative = RepVal.ofStr s) :
    (adjustRouteF m r).representative =
      (if s ≠ [] then
        (match dget? m (pstrip s) with
         | some v => RepVal.ofStr v
         | none => RepVal.ofStr s)
      else RepVal.ofStr s) := by
  have h1 : (adjustAdj m r).representative = RepVal.ofStr s := (adjustAdj_rep m r).trans h
  simp only [adjustRouteF, h1]
  by_cases hs : s ≠ []
  · rw [if_pos hs, if_pos hs]
    cases hd : dget? m (pstrip s) <;> simp [h1]
  · rw [if_neg hs, if_neg hs]
    exact h1

theorem routeRefTokens_eq {r : BRoute} {s : Str} (h : r.representative = RepVal.ofStr s) :
    routeRefTokens r = Except.ok (adjTokens r.adjacentRoutes ++ adjTokens s) := by
  unfold routeRefTokens
  rw [h]
  by_cases hadj : r.adjacentRoutes ≠ [] <;> by_cases hs : s ≠ [] <;>
    simp only [hadj, hs, reduceIte] <;> simp_all [adjTokens_nil]

theorem dgetD_clean {pfx : Str} {gap minNew : ℕ} {names : List Str}
    (hpfx : PfxOk pfx) {a : Str} (ha : cleanTok a) :
    cleanTok (dgetD (name_mapping pfx gap minNew names) a a) := by
  unfold dgetD
  cases hd : dget? (name_mapping pfx gap minNew names) a with
  | none => exact ha
  | some v => exact dget?_name_mapping_clean hpfx hd

theorem adjTokens_join_mapped {pfx : Str} {gap minNew : ℕ} {names : List Str}
    (hpfx : PfxOk pfx) {ts : List Str} (hts : ∀ t ∈ ts, cleanTok t) :
    adjTokens (joinComma (ts.map (fun a => dgetD (name_mapping pfx gap minNew names) a a)))
      = ts.map (fun a => dgetD (name_mapping pfx gap minNew names) a a) := by
  cases hts0 : ts with
  | nil => rfl
  | cons t0 rest =>
    rw [← hts0]
    have hclean : ∀ t' ∈ ts.map (fun a => dgetD (name_mapping pfx gap minNew names) a a),
        cleanTok t' := by
      intro t' ht'
      rw [List.mem_map] at ht'
      obtain ⟨a, ha, rfl⟩ := ht'
      exact dgetD_clean hpfx (hts a ha)
    unfold adjTokens
    rw [splitSepChars_joinComma (by rw [hts0]; simp)
      (fun t' ht' c hc => (hclean t' ht').2.2 c hc)]
    rw [(List.map_congr_left (fun t' ht' => (hclean t' ht').2.1)).trans
      (List.map_id (ts.map (fun a => dgetD (name_mapping pfx gap minNew names) a a)))]
    rw [List.filter_eq_self.2 (fun t' ht' => by simpa using (hclean t' ht').1)]

theorem adjTokens_updateLabel {pfx : Str} {gap minNew : ℕ} {names : List Str}
    (hpfx : PfxOk pfx) (nd : BNode) :
    adjTokens ((updateLabel (name_mapping pfx gap minNew names) nd).label)
      = (adjTokens nd.label).map (fun a => dgetD (name_mapping pfx gap minNew names) a a) := by
  unfold updateLabel
  by_cases hl : nd.label = []
  · rw [if_pos hl, hl, adjTokens_nil]
    rfl
  · rw [if_neg hl]
    show adjTokens (joinComma ((splitSepChars nd.label).map
        (fun p => dgetD (name_mapping pfx gap minNew names) (pstrip p) (pstrip p)))) = _
    have hpieces : ∀ p ∈ splitSepChars nd.label, ∀ c ∈ pstrip p, isSepChar c = false :=
      fun p hp c hc => mem_splitSepChars_sepFree hp (mem_pstrip hc)
    have helem : ∀ p ∈ splitSepChars nd.label,
        pstrip (dgetD (name_mapping pfx gap minNew names) (pstrip p) (pstrip p))
          = dgetD (name_mapping pfx gap minNew names) (pstrip p) (pstrip p) ∧
        (∀ c ∈ dgetD (name_mapping pfx gap minNew names) (pstrip p) (pstrip p),
          isSepChar c = false) := by
      intro p hp
      unfold dgetD
      cases hd : dget? (name_mapping pfx gap minNew names) (pstrip p) with
      | none => exact ⟨pstrip_idem p, fun c hc => hpieces p hp c hc⟩
      | some v =>
        have hv := dget?_name_mapping_clean hpfx hd
        exact ⟨hv.2.1, hv.2.2⟩
    unfold adjTokens
    rw [splitSepChars_joinComma (by simpa using splitSepChars_ne_nil)
      (by
        intro t' ht' c hc
        rw [List.mem_map] at ht'
        obtain ⟨p, hp, rfl⟩ := ht'
        exact (helem p hp).2 c hc)]
    rw [List.map_map]
    rw [List.map_congr_left (fun p hp => by
      show pstrip (dgetD _ (pstrip p) (pstrip p)) = _
      exact (helem p hp).1)]
    rw [List.filter_map, List.filter_map, List.map_map]
    apply congrArg
    apply List.filter_congr
    intro p hp
    show decide (dgetD (name_mapping pfx gap minNew names) (pstrip p) (pstrip p) ≠ [])
      = decide (pstrip p ≠ [])
    by_cases hps : pstrip p = []
    · rw [hps]
      unfold dgetD
      rw [dget?_name_mapping_nil hpfx]
      rfl
    · unfold dgetD
      cases hd : dget? (name_mapping pfx gap minNew names) (pstrip p) with
      | none => rfl
      | some v =>
        have hv := dget?_name_mapping_clean hpfx hd
        simp [hv.1, hps]

theorem adjTokens_single {s : Str} (h1 : ∀ c ∈ s, isSepChar c = false) :
    adjTokens s = if pstrip s = [] then [] else [pstrip s] := by
  unfold adjTokens
  rw [splitSepChars_single h1]
  by_cases hp : pstrip s = [] <;> simp [List.filter, hp]

theorem dget?_name_mapping_not_matching {pfx : Str} {gap minNew : ℕ} {names : List Str}
    {k : Str} (hk : matchesRoute pfx k = false) :
    dget? (name_mapping pfx gap minNew names) k = none := by
  unfold name_mapping
  exact dget?_none_of_not_matching (fun p hp => absurd hp (List.not_mem_nil p)) hk

theorem repTokens_adjusted {pfx : Str} {gap minNew : ℕ} {names : List Str}
    (hpfx : PfxOk pfx) {r : BRoute} {s : Str}
    (h : r.representative = RepVal.ofStr s) (hsep : ∀ c ∈ s, isSepChar c = false) :
    ∃ s2, (adjustRouteF (name_mapping pfx gap minNew names) r).representative
        = RepVal.ofStr s2 ∧
      adjTokens s2 = (adjTokens s).map
        (fun a => dgetD (name_mapping pfx gap minNew names) a a) := by
  rw [adjustRouteF_rep h]
  by_cases hs : s ≠ []
  · rw [if_pos hs]
    cases hd : dget? (name_mapping pfx gap minNew names) (pstrip s) with
    | some v =>
      refine ⟨v, rfl, ?_⟩
      have hv := dget?_name_mapping_clean hpfx hd
      have hps : pstrip s ≠ [] := by
        intro he
        rw [he, dget?_name_mapping_nil hpfx] at hd
        exact absurd hd (by simp)
      rw [adjTokens_single hv.2.2, adjTokens_single hsep]
      rw [if_neg (by rw [hv.2.1]; exact hv.1), if_neg hps]
      simp only [List.map_cons, List.map_nil]
      rw [show dgetD (name_mapping pfx gap minNew names) (pstrip s) (pstrip s) = v by
        unfold dgetD; rw [hd]; rfl]
      rw [hv.2.1]
    | none =>
      refine ⟨s, rfl, ?_⟩
      rw [adjTokens_single hsep]
      by_cases hps : pstrip s = []
      · rw [if_pos hps]
        rfl
      · rw [if_neg hps]
        simp only [List.map_cons, List.map_nil]
        rw [show dgetD (name_mapping pfx gap minNew names) (pstrip s) (pstrip s) = pstrip s by
          unfold dgetD; rw [hd]; rfl]
  · rw [if_neg hs]
    rw [not_not] at hs
    subst hs
    exact ⟨[], rfl, rfl⟩

/-- The token list the closure check recovers for a route whose
representative is a string. -/
def refTokensF (r : BRoute) : List Str :=
  match r.representative with
  | RepVal.ofStr s => adjTokens r.adjacentRoutes ++ adjTokens s
  | RepVal.ofBool _ => []

theorem refTokensF_eq {r : BRoute} {s : Str} (h : r.representative = RepVal.ofStr s) :
    refTokensF r = adjTokens r.adjacentRoutes ++ adjTokens s := by
  unfold refTokensF
  rw [h]

theorem routeRefTokens_eq_F {r : BRoute} {s : Str} (h : r.representative = RepVal.ofStr s) :
    routeRefTokens r = Except.ok (refTokensF r) := by
  rw [routeRefTokens_eq h, refTokensF_eq h]

theorem refTokensF_adjusted {pfx : Str} {gap minNew : ℕ} {names : List Str}
    (hpfx : PfxOk pfx) {r : BRoute} {s : Str}
    (h : r.representative = RepVal.ofStr s) (hsep : ∀ c ∈ s, isSepChar c = false) :
    refTokensF (adjustRouteF (name_mapping pfx gap minNew names) r)
      = (adjTokens r.adjacentRoutes ++ adjTokens s).map
          (fun a => dgetD (name_mapping pfx gap minNew names) a a) := by
  obtain ⟨s2, hs2, htok⟩ := repTokens_adjusted hpfx h hsep
  rw [refTokensF_eq hs2, htok, List.map_append]
  congr 1
  rw [adjustRouteF_adjacent]
  by_cases hadj : r.adjacentRoutes ≠ []
  · rw [if_pos hadj]
    exact adjTokens_join_mapped hpfx (fun t ht => adjTokens_props ht)
  · rw [if_neg hadj]
    rw [not_not] at hadj
    rw [hadj, adjTokens_nil]
    rfl

/-- The representative field shape assumed by the closure-check claim: a
string that is empty or a single separator-free token whose stripped form is
a document route name. -/
def RepOk (names : List Str) (v : RepVal) : Prop :=
  match v with
  | RepVal.ofStr s => s = [] ∨ ((∀ c ∈ s, isSepChar c = false) ∧ pstrip s ∈ names)
  | RepVal.ofBool _ => False

theorem renameRoutes_surj {m : Dict} {routes : List BRoute} {r : BRoute} (hr : r ∈ routes) :
    ∃ r1 ∈ renameRoutes m routes, r1.adjacentRoutes = r.adjacentRoutes ∧
      r1.representative = r.representative := by
  unfold renameRoutes
  refine ⟨_, List.mem_map.2 ⟨r, hr, rfl⟩, ?_, ?_⟩ <;> (cases hd : dget? m r.name <;> simp [hd])

theorem names2_eq (m : Dict) (routes : List BRoute) :
    ((renameRoutes m routes).map (adjustRouteF m)).map BRoute.name
      = (routes.map BRoute.name).map (fun n => dgetD m n n) := by
  rw [List.map_map]
  have h1 : (renameRoutes m routes).map (BRoute.name ∘ adjustRouteF m)
      = (renameRoutes m routes).map BRoute.name :=
    List.map_congr_left (fun r1 _ => adjustRouteF_name m r1)
  rw [h1, renameRoutes_map_name]

theorem closure_main (pfx : Str) (gap minNew : ℕ) (hpfx : PfxOk pfx)
    (routes : List BRoute) (nodes : List BNode) (D : List Str)
    (Hadj : ∀ r ∈ routes, ∀ t ∈ adjTokens r.adjacentRoutes,
      t ∈ routes.map BRoute.name ∨ t ∈ D)
    (Hrep : ∀ r ∈ routes, RepOk (routes.map BRoute.name) r.representative)
    (Hlab : ∀ nd ∈ nodes, ∀ t ∈ adjTokens nd.label,
      t ∈ routes.map BRoute.name ∨ t ∈ D)
    (HD : ∀ d ∈ D, d ∉ routes.map BRoute.name ∧ matchesRoute pfx d = false) :
    ∃ rs ns bset,
      bulkUpdate pfx gap minNew routes nodes = Except.ok (rs, ns) ∧
      broken_refs rs ns = Except.ok bset ∧
      (∀ x ∈ bset, x ∈ D) ∧
      (∀ r ∈ routes, ∀ t ∈ adjTokens r.adjacentRoutes, t ∈ D → t ∈ bset) := by
  have hrep1 : ∀ r1 ∈ renameRoutes (name_mapping pfx gap minNew (routes.map BRoute.name)) routes,
      ∃ s, r1.representative = RepVal.ofStr s ∧
        (s = [] ∨ ((∀ c ∈ s, isSepChar c = false) ∧ pstrip s ∈ routes.map BRoute.name)) ∧
        (∀ t ∈ adjTokens r1.adjacentRoutes, t ∈ routes.map BRoute.name ∨ t ∈ D) := by
    intro r1 h1
    obtain ⟨r, hr, hadjeq, hrepeq⟩ := renameRoutes_fields h1
    have hro := Hrep r hr
    cases hrv : r.representative with
    | ofBool b =>
      rw [hrv] at hro
      simp only [RepOk] at hro
    | ofStr s =>
      rw [hrv] at hro
      simp only [RepOk] at hro
      refine ⟨s, hrepeq.trans hrv, hro, ?_⟩
      rw [hadjeq]
      exact Hadj r hr
  have htoks : ∀ r1 ∈ renameRoutes (name_mapping pfx gap minNew (routes.map BRoute.name)) routes,
      routeRefTokens (adjustRouteF (name_mapping pfx gap minNew (routes.map BRoute.name)) r1)
          = Except.ok (refTokensF
            (adjustRouteF (name_mapping pfx gap minNew (routes.map BRoute.name)) r1)) ∧
        (∀ tok ∈ refTokensF
            (adjustRouteF (name_mapping pfx gap minNew (routes.map BRoute.name)) r1),
          ∃ a, tok = dgetD (name_mapping pfx gap minNew (routes.map BRoute.name)) a a ∧
            (a ∈ routes.map BRoute.name ∨ a ∈ D)) ∧
        (∀ t ∈ adjTokens r1.adjacentRoutes,
          dgetD (name_mapping pfx gap minNew (routes.map BRoute.name)) t t ∈
            refTokensF (adjustRouteF (name_mapping pfx gap minNew (routes.map BRoute.name)) r1)) := by
    intro r1 h1
    obtain ⟨s, hs, hsprop, hadjmem⟩ := hrep1 r1 h1
    have hsep : ∀ c ∈ s, isSepChar c = false := by
      rcases hsprop with rfl | ⟨hsep, _⟩
      · intro c hc; simp at hc
      · exact hsep
    have hF := @refTokensF_adjusted pfx gap minNew (routes.map BRoute.name) hpfx r1 s hs hsep
    obtain ⟨s2, hs2, _⟩ :=
      @repTokens_adjusted pfx gap minNew (routes.map BRoute.name) hpfx r1 s hs hsep
    refine ⟨routeRefTokens_eq_F hs2, ?_, ?_⟩
    · intro tok htok
      rw [hF] at htok
      rw [List.mem_map] at htok
      obtain ⟨a, ha, rfl⟩ := htok
      rcases List.mem_append.1 ha with ha2 | ha2
      · exact ⟨a, rfl, hadjmem a ha2⟩
      · rcases hsprop with rfl | ⟨hsep2, hmem⟩
        · rw [adjTokens_nil] at ha2
          exact absurd ha2 (List.not_mem_nil a)
        · rw [adjTokens_single hsep2] at ha2
          by_cases hps : pstrip s = []
          · rw [if_pos hps] at ha2
            exact absurd ha2 (List.not_mem_nil a)
          · rw [if_neg hps] at ha2
            rw [List.mem_singleton] at ha2
            subst ha2
            exact ⟨pstrip s, rfl, Or.inl hmem⟩
    · intro t ht
      rw [hF]
      exact List.mem_map.2 ⟨t, List.mem_append_left _ ht, rfl⟩
  have hok : (renameRoutes (name_mapping pfx gap minNew (routes.map BRoute.name)) routes).mapM
        (adjustRoute (name_mapping pfx gap minNew (routes.map BRoute.name)))
      = Except.ok ((renameRoutes (name_mapping pfx gap minNew (routes.map BRoute.name)) routes).map
          (adjustRouteF (name_mapping pfx gap minNew (routes.map BRoute.name)))) := by
    apply mapM_ok_of_forall
    intro r1 h1
    obtain ⟨s, hs, _, _⟩ := hrep1 r1 h1
    exact adjustRoute_ok hs
  have hmap2 : ((renameRoutes (name_mapping pfx gap minNew (routes.map BRoute.name)) routes).map
        (adjustRouteF (name_mapping pfx gap minNew (routes.map BRoute.name)))).mapM routeRefTokens
      = Except.ok (((renameRoutes (name_mapping pfx gap minNew (routes.map BRoute.name)) routes).map
          (adjustRouteF (name_mapping pfx gap minNew (routes.map BRoute.name)))).map refTokensF) := by
    apply mapM_ok_of_forall
    intro r2 h2
    obtain ⟨r1, h1, rfl⟩ := List.mem_map.1 h2
    exact (htoks r1 h1).1
  refine ⟨(renameRoutes (name_mapping pfx gap minNew (routes.map BRoute.name)) routes).map
      (adjustRouteF (name_mapping pfx gap minNew (routes.map BRoute.name))),
    nodes.map (updateLabel (name_mapping pfx gap minNew (routes.map BRoute.name))),
    (((((renameRoutes (name_mapping pfx gap minNew (routes.map BRoute.name)) routes).map
        (adjustRouteF (name_mapping pfx gap minNew (routes.map BRoute.name)))).map
          refTokensF).flatten ++
      ((nodes.map (updateLabel (name_mapping pfx gap minNew (routes.map BRoute.name)))).map
        nodeRefTokens).flatten).filter
      (fun t => decide (t ∉ ((renameRoutes (name_mapping pfx gap minNew
          (routes.map BRoute.name)) routes).map (adjustRouteF (name_mapping pfx gap minNew
            (routes.map BRoute.name)))).map BRoute.name))).toFinset, ?_, ?_, ?_, ?_⟩
  · simp only [bulkUpdate]
    rw [hok]
    rfl
  · simp only [broken_refs]
    rw [hmap2]
    rfl
  · intro x hx
    rw [List.mem_toFinset, List.mem_filter] at hx
    obtain ⟨hxL, hxnot⟩ := hx
    rw [decide_eq_true_eq] at hxnot
    rw [names2_eq] at hxnot
    rcases List.mem_append.1 hxL with hxr | hxn
    · rw [List.mem_flatten] at hxr
      obtain ⟨l, hl, hxl⟩ := hxr
      rw [List.mem_map] at hl
      obtain ⟨r2, hr2, rfl⟩ := hl
      rw [List.mem_map] at hr2
      obtain ⟨r1, h1, rfl⟩ := hr2
      obtain ⟨a, rfl, hnm⟩ := (htoks r1 h1).2.1 x hxl
      rcases hnm with hna | hna
      · exact absurd (List.mem_map.2 ⟨a, hna, rfl⟩) hxnot
      · obtain ⟨_, hnm2⟩ := HD a hna
        have : dgetD (name_mapping pfx gap minNew (routes.map BRoute.name)) a a = a := by
          unfold dgetD
          rw [dget?_name_mapping_not_matching hnm2]
          rfl
        rw [this]
        exact hna
    · rw [List.mem_flatten] at hxn
      obtain ⟨l, hl, hxl⟩ := hxn
      rw [List.mem_map] at hl
      obtain ⟨nd2, hnd2, rfl⟩ := hl
      rw [List.mem_map] at hnd2
      obtain ⟨nd, hnd, rfl⟩ := hnd2
      unfold nodeRefTokens at hxl
      rw [@adjTokens_updateLabel pfx gap minNew (routes.map BRoute.name) hpfx nd] at hxl
      rw [List.mem_map] at hxl
      obtain ⟨a, ha, rfl⟩ := hxl
      rcases Hlab nd hnd a ha with hna | hna
      · exact absurd (List.mem_map.2 ⟨a, hna, rfl⟩) hxnot
      · obtain ⟨_, hnm2⟩ := HD a hna
        have : dgetD (name_mapping pfx gap minNew (routes.map BRoute.name)) a a = a := by
          unfold dgetD
          rw [dget?_name_mapping_not_matching hnm2]
          rfl
        rw [this]
        exact hna
  · intro r hr t ht htD
    obtain ⟨r1, h1, hadjeq, _⟩ := renameRoutes_surj
      (m := name_mapping pfx gap minNew (routes.map BRoute.name)) hr
    have hmemtok := (htoks r1 h1).2.2 t (by rw [hadjeq]; exact ht)
    obtain ⟨hDn, hDm⟩ := HD t htD
    have hdt : dgetD (name_mapping pfx gap minNew (routes.map BRoute.name)) t t = t := by
      unfold dgetD
      rw [dget?_name_mapping_not_matching hDm]
      rfl
    rw [hdt] at hmemtok
    rw [List.mem_toFinset, List.mem_filter]
    constructor
    · apply List.mem_append_left
      rw [List.mem_flatten]
      exact ⟨_, List.mem_map.2 ⟨_, List.mem_map.2 ⟨r1, h1, rfl⟩, rfl⟩, hmemtok⟩
    · rw [decide_eq_true_eq, names2_eq]
      intro hcon
      rw [List.mem_map] at hcon
      obtain ⟨n, hn, heq⟩ := hcon
      revert heq
      unfold dgetD
      cases hd : dget? (name_mapping pfx gap minNew (routes.map BRoute.name)) n with
      | none =>
        intro heq
        rw [Option.getD_none] at heq
        subst heq
        exact hDn hn
      | some v =>
        intro heq
        rw [Option.getD_some] at heq
        subst heq
        obtain ⟨c, rfl⟩ := dget?_name_mapping_value hd
        rw [matchesRoute_append_decChars] at hDm
        exact Bool.noConfusion hDm

instance (names : List Str) (v : RepVal) : Decidable (RepOk names v) :=
  match v with
  | RepVal.ofStr s => inferInstanceAs
      (Decidable (s = [] ∨ ((∀ c ∈ s, isSepChar c = false) ∧ pstrip s ∈ names)))
  | RepVal.ofBool _ => inferInstanceAs (Decidable False)

/-- A fully self-consistent document, as in the claim's first scenario:
every adjacency and label token resolves to a route name and every
representative is an admissible string reference. -/
@[reducible] def SelfConsistent (routes : List BRoute) (nodes : List BNode) : Prop :=
  (∀ r ∈ routes, ∀ t ∈ adjTokens r.adjacentRoutes, t ∈ routes.map BRoute.name) ∧
  (∀ r ∈ routes, RepOk (routes.map BRoute.name) r.representative) ∧
  (∀ nd ∈ nodes, ∀ t ∈ adjTokens nd.label, t ∈ routes.map BRoute.name)

/-- A document that is self-consistent except for one deliberately dangling
adjacency token d: d occurs among the adjacency tokens, resolves to no route
name, and does not have the prefix-number shape (so it also matches no
post-renumber name). -/
@[reducible] def DanglingOne (pfx : Str) (routes : List BRoute) (nodes : List BNode) (d : Str) : Prop :=
  (∀ r ∈ routes, ∀ t ∈ adjTokens r.adjacentRoutes, t ∈ routes.map BRoute.name ∨ t = d) ∧
  (∃ r ∈ routes, d ∈ adjTokens r.adjacentRoutes) ∧
  d ∉ routes.map BRoute.name ∧
  matchesRoute pfx d = false ∧
  (∀ r ∈ routes, RepOk (routes.map BRoute.name) r.representative) ∧
  (∀ nd ∈ nodes, ∀ t ∈ adjTokens nd.label, t ∈ routes.map BRoute.name)

/-- C5: after the bulk renumber rewrites names, adjacencies, representatives
and node labels, the closure check reports, without aborting the saved
update, exactly the tokens that do not resolve to a current route name: on a
self-consistent route set the unresolved-reference set is empty, and with
exactly one deliberately dangling adjacency string d, exactly the singleton
d is reported. -/
theorem c5_closure_check (pfx : Str) (gap minNew : ℕ) (hpfx : PfxOk pfx) :
    (∀ (routes : List BRoute) (nodes : List BNode), SelfConsistent routes nodes →
      ∃ rs ns, bulkUpdate pfx gap minNew routes nodes = Except.ok (rs, ns) ∧
        broken_refs rs ns = Except.ok (∅ : Finset Str)) ∧
    (∀ (routes : List BRoute) (nodes : List BNode) (d : Str),
      DanglingOne pfx routes nodes d →
      ∃ rs ns, bulkUpdate pfx gap minNew routes nodes = Except.ok (rs, ns) ∧
        broken_refs rs ns = Except.ok ({d} : Finset Str)) := by
  constructor
  · intro routes nodes hsc
    obtain ⟨Hadj, Hrep, Hlab⟩ := hsc
    obtain ⟨rs, ns, bset, h1, h2, h3, _⟩ := closure_main pfx gap minNew hpfx routes nodes []
      (fun r hr t ht => Or.inl (Hadj r hr t ht)) Hrep
      (fun nd hnd t ht => Or.inl (Hlab nd hnd t ht))
      (fun d hd => absurd hd (List.not_mem_nil d))
    refine ⟨rs, ns, h1, ?_⟩
    rw [h2]
    congr 1
    apply Finset.eq_empty_of_forall_not_mem
    intro x hx
    exact absurd (h3 x hx) (List.not_mem_nil x)
  · intro routes nodes d hdo
    obtain ⟨Hadj, ⟨r0, hr0, hd0⟩, hdn, hdm, Hrep, Hlab⟩ := hdo
    obtain ⟨rs, ns, bset, h1, h2, h3, h4⟩ := closure_main pfx gap minNew hpfx routes nodes [d]
      (fun r hr t ht => by
        rcases Hadj r hr t ht with h | h
        · exact Or.inl h
        · exact Or.inr (by rw [h]; exact List.mem_singleton_self d))
      Hrep
      (fun nd hnd t ht => Or.inl (Hlab nd hnd t ht))
      (fun e he => by
        rw [List.mem_singleton] at he
        subst he
        exact ⟨hdn, hdm⟩)
    refine ⟨rs, ns, h1, ?_⟩
    rw [h2]
    congr 1
    apply Finset.ext
    intro x
    rw [Finset.mem_singleton]
    constructor
    · intro hx
      have := h3 x hx
      rwa [List.mem_singleton] at this
    · intro hx
      subst hx
      exact h4 r0 hr0 x hd0 (List.mem_singleton_self x)

/-- Witness for C5: a concrete two-route self-consistent document, and the
same document with a deliberately dangling adjacency token GHOST. -/
theorem c5_closure_check_witness :
    (PfxOk ("MONT").data ∧
      SelfConsistent
        [⟨("MONT1500").data, ("MONT1505").data, RepVal.ofStr (("MONT1500").data)⟩,
          ⟨("MONT1505").data, [], RepVal.ofStr (("MONT1500").data)⟩]
        [⟨("MONT1500,MONT1505").data⟩] ∧
      DanglingOne ("MONT").data
        [⟨("MONT1500").data, ("MONT1505,GHOST").data, RepVal.ofStr (("MONT1500").data)⟩,
          ⟨("MONT1505").data, [], RepVal.ofStr (("MONT1500").data)⟩]
        [⟨("MONT1500,MONT1505").data⟩] (("GHOST").data)) ∧
    (∃ rs ns, bulkUpdate ("MONT").data 5 2000
        [⟨("MONT1500").data, ("MONT1505").data, RepVal.ofStr (("MONT1500").data)⟩,
          ⟨("MONT1505").data, [], RepVal.ofStr (("MONT1500").data)⟩]
        [⟨("MONT1500,MONT1505").data⟩] = Except.ok (rs, ns) ∧
      broken_refs rs ns = Except.ok (∅ : Finset Str)) ∧
    (∃ rs ns, bulkUpdate ("MONT").data 5 2000
        [⟨("MONT1500").data, ("MONT1505,GHOST").data, RepVal.ofStr (("MONT1500").data)⟩,
          ⟨("MONT1505").data, [], RepVal.ofStr (("MONT1500").data)⟩]
        [⟨("MONT1500,MONT1505").data⟩] = Except.ok (rs, ns) ∧
      broken_refs rs ns = Except.ok ({("GHOST").data} : Finset Str)) :=
  ⟨⟨by decide, by decide, by decide⟩,
    (c5_closure_check ("MONT").data 5 2000 (by decide)).1 _ _ (by decide),
    (c5_closure_check ("MONT").data 5 2000 (by decide)).2 _ _ _ (by decide)⟩

/-!  The click-editing rename of Home.py.  The "Appliquer les changements"
button (lines 220-234) validates the new route name and, on success,
rewrites the selected route's own name, the selected preference's zone name
and the selected route's adjacentRoutes, in place; no other route object is
touched.  (The postal-code add/remove blocks that follow, lines 236-304,
also only mutate the selected route and are not modeled here.) -/

/-- A preference, reduced to what the rename branch touches: the zone name
of its polygon DTO. -/
structure HPref where
  zoneName : Str
  deriving DecidableEq

/-- A route of the Home.py document. -/
structure HRoute where
  name : Str
  adjacentRoutes : Str
  representative : Str
  prefs : List HPref
  deriving DecidableEq

/-- Models re.match of the anchored pattern: the prefix followed by one or
more digits and nothing else, returning the captured number. -/
def nameNum? (pfx nm : Str) : Option ℕ :=
  if pfx.isPrefixOf nm then
    if nm.drop pfx.length ≠ [] ∧ (nm.drop pfx.length).all Char.isDigit then
      some (decVal (nm.drop pfx.length))
    else none
  else none

/-- The validations of Home.py lines 221-230 followed by the in-place update
of lines 232-234: pattern check, admissible-range check, duplicate-name
check against the other routes (the source reads the displayed polygon
list, whose route names are those of the document's routes), then update of
the selected route only.  none models the error paths where nothing is
written. -/
def applyRename (routes : List HRoute) (i prefIdx : ℕ) (pfx : Str) (minR maxR : ℕ)
    (newName newZone newAdj : Str) : Option (List HRoute) :=
  match routes.get? i with
  | none => none
  | some r =>
    match nameNum? pfx newName with
    | none => none
    | some num =>
      if minR ≤ num ∧ num ≤ maxR then
        if newName ≠ r.name ∧ newName ∈ routes.map HRoute.name then none
        else
          some (routes.set i
            { r with
                name := newName,
                adjacentRoutes := newAdj,
                prefs := r.prefs.set prefIdx { zoneName := newZone } })
      else none

/-- C8: a successful rename updates only the selected route: every other
route object, in particular its adjacentRoutes and representative fields, is
exactly the same afterwards, and the selected route carries the new name. -/
theorem c8_rename_frame (routes routes' : List HRoute) (i prefIdx : ℕ) (pfx : Str)
    (minR maxR : ℕ) (newName newZone newAdj : Str)
    (h : applyRename routes i prefIdx pfx minR maxR newName newZone newAdj = some routes') :
    (∀ j, j ≠ i → routes'.get? j = routes.get? j) ∧
    ((routes'.get? i).map HRoute.name = (routes.get? i).map (fun _ => newName)) ∧
    (∀ j, j ≠ i →
      (routes'.get? j).map HRoute.adjacentRoutes = (routes.get? j).map HRoute.adjacentRoutes ∧
      (routes'.get? j).map HRoute.representative
        = (routes.get? j).map HRoute.representative) := by
  unfold applyRename at h
  split at h
  · exact absurd h (by simp)
  next r hget =>
    split at h
    · exact absurd h (by simp)
    next num hnum =>
      split at h
      · split at h
        · exact absurd h (by simp)
        · rw [Option.some_inj] at h
          subst h
          have hlt : i < routes.length := (List.get?_eq_some.1 hget).1
          refine ⟨?_, ?_, ?_⟩
          · intro j hj
            exact List.get?_set_ne _ _ (fun he => hj he.symm)
          · rw [List.get?_set_eq_of_lt _ hlt, hget]
            rfl
          · intro j hj
            rw [List.get?_set_ne _ _ (fun he => hj he.symm)]
            exact ⟨rfl, rfl⟩
      · exact absurd h (by simp)

/-- The concrete document before the rename. -/
def c8docBefore : List HRoute :=
  [⟨("MONT1500").data, ("MONT1505").data, ("MONT1500").data, [⟨("Z1").data⟩]⟩,
    ⟨("MONT1505").data, ("MONT1500").data, ("MONT1500").data, [⟨("Z2").data⟩]⟩]

/-- The expected document after renaming the first route to MONT1501. -/
def c8docAfter : List HRoute :=
  [⟨("MONT1501").data, ("MONT1505").data, ("MONT1500").data, [⟨("Z9").data⟩]⟩,
    ⟨("MONT1505").data, ("MONT1500").data, ("MONT1500").data, [⟨("Z2").data⟩]⟩]

/-- Witness for C8: a concrete successful rename of the first of two routes
leaves the second route untouched. -/
theorem c8_rename_frame_witness :
    applyRename c8docBefore 0 0 ("MONT").data 1500 1999
        ("MONT1501").data ("Z9").data ("MONT1505").data = some c8docAfter ∧
    ((∀ j, j ≠ 0 → c8docAfter.get? j = c8docBefore.get? j) ∧
      ((c8docAfter.get? 0).map HRoute.name
        = (c8docBefore.get? 0).map (fun _ => ("MONT1501").data)) ∧
      (∀ j, j ≠ 0 →
        (c8docAfter.get? j).map HRoute.adjacentRoutes
            = (c8docBefore.get? j).map HRoute.adjacentRoutes ∧
          (c8docAfter.get? j).map HRoute.representative
            = (c8docBefore.get? j).map HRoute.representative)) :=
  ⟨by decide,
    c8_rename_frame c8docBefore c8docAfter 0 0 ("MONT").data 1500 1999
      ("MONT1501").data ("Z9").data ("MONT1505").data (by decide)⟩

end RouteCfg
